import Mathlib

/-!
A shallow embedding of the `redis-protocol` codec (src/types.rs, src/decode.rs,
src/encode.rs, src/utils.rs).  Byte buffers are `List Nat` (each element a byte
value < 256 on the wire), Rust `String`s are their UTF-8 byte lists, `i64` is
`Int`, `u16`/`usize` are `Nat`.  Fallible operations return `Option`/`Except`,
and Rust panics are modelled as an explicit `panicked` outcome.
-/

set_option maxRecDepth 10000

namespace RedisProto

/-- UTF-8 size in bytes of one scalar value, as Rust's `char::len_utf8`. -/
def charSize (c : Char) : Nat :=
  if c.toNat < 0x80 then 1
  else if c.toNat < 0x800 then 2
  else if c.toNat < 0x10000 then 3
  else 4

/-- UTF-8 encoding of one scalar value. -/
def charBytes (c : Char) : List Nat :=
  let n := c.toNat
  if n < 0x80 then [n]
  else if n < 0x800 then [0xC0 ||| (n >>> 6), 0x80 ||| (n &&& 0x3F)]
  else if n < 0x10000 then
    [0xE0 ||| (n >>> 12), 0x80 ||| ((n >>> 6) &&& 0x3F), 0x80 ||| (n &&& 0x3F)]
  else
    [0xF0 ||| (n >>> 18), 0x80 ||| ((n >>> 12) &&& 0x3F),
     0x80 ||| ((n >>> 6) &&& 0x3F), 0x80 ||| (n &&& 0x3F)]

/-- UTF-8 bytes of a character list (a Rust `&str`). -/
def strBytesOf (cs : List Char) : List Nat := (cs.map charBytes).flatten

/-- UTF-8 bytes of a Lean string literal; used to transcribe Rust literals. -/
def strBytes (s : String) : List Nat := strBytesOf s.data

/-- `l[a..b]` as in Rust slice-of-bytes indexing (no bounds enforcement here;
out-of-range indices just clip, callers establish the bounds). -/
def subList (l : List Nat) (a b : Nat) : List Nat := (l.take b).drop a

/-- Is the byte an ASCII decimal digit? -/
def isDigit (b : Nat) : Bool := 48 ≤ b && b ≤ 57

/-- Value of a digit string (callers check `isDigit` of every byte). -/
def digitsVal (l : List Nat) : Nat := l.foldl (fun v b => v * 10 + (b - 48)) 0

/-- Minimal decimal digits of `n`, most significant first (ASCII bytes).
`fuel` is only a structural-recursion bound; `natDecimal` supplies enough. -/
def natDecimalAux : Nat → Nat → List Nat
  | 0, _ => []
  | f + 1, n => if n < 10 then [n + 48] else natDecimalAux f (n / 10) ++ [n % 10 + 48]

theorem natDecimalAux_eq_of_le {f g n : Nat} (hf : n < f) (hg : n < g) :
    natDecimalAux f n = natDecimalAux g n := by
  induction f generalizing g n with
  | zero => omega
  | succ f ih =>
    cases g with
    | zero => omega
    | succ g =>
      simp only [natDecimalAux]
      by_cases h : n < 10
      · simp [h]
      · have h1 : n / 10 < f := by omega
        have h2 : n / 10 < g := by omega
        simp only [h, if_false, ih h1 h2]

/-- Rust's `{}` rendering of a nonnegative integer. -/
def natDecimal (n : Nat) : List Nat := natDecimalAux (n + 1) n

/-- Rust's `{}` rendering of an `i64` (minimal digits, `-` for negatives). -/
def intDecimal (i : Int) : List Nat :=
  if i < 0 then 45 :: natDecimal (-i).toNat else natDecimal i.toNat

/-- Strip the optional leading `+` accepted by Rust `u16::from_str`. -/
def parseU16Digits (l : List Nat) : List Nat :=
  match l with
  | [] => []
  | b :: rest => if b = 43 then rest else b :: rest

/-- Rust `u16::from_str`: optional `+`, then one or more ASCII digits whose
value fits in `u16` (checked per-digit accumulation, equivalent to a final
bound check because partial values only grow). -/
def parseU16 (l : List Nat) : Option Nat :=
  let digits := parseU16Digits l
  if digits = [] then none
  else if digits.all isDigit then
    if digitsVal digits ≤ 65535 then some (digitsVal digits) else none
  else none

/-- The sign prefix handling of the `atoi` crate. -/
def atoiSign (l : List Nat) : Int × List Nat :=
  match l with
  | [] => (1, [])
  | b :: rest => if b = 43 then (1, rest) else if b = 45 then (-1, rest) else (1, b :: rest)

/-- The `atoi` crate's `atoi::<i64>`: optional sign, then the longest leading
run of ASCII digits (trailing bytes ignored); `none` if no digit or the value
overflows `i64` (checked accumulation, equivalent to a final bound check
because partial magnitudes only grow). -/
def atoiInt (l : List Nat) : Option Int :=
  let sr := atoiSign l
  let digs := sr.2.takeWhile isDigit
  if digs = [] then none
  else
    let v : Int := sr.1 * (digitsVal digs : Int)
    if -(2 ^ 63) ≤ v ∧ v ≤ 2 ^ 63 - 1 then some v else none

/-- Is the byte a UTF-8 continuation byte (0x80..=0xBF)? -/
def contB (b : Nat) : Bool := 0x80 ≤ b && b ≤ 0xBF

/-- Validity of a byte list as UTF-8, as checked by Rust's
`String::from_utf8` (RFC 3629 table, surrogates and overlongs rejected). -/
def utf8Valid : List Nat → Bool
  | [] => true
  | b :: rest =>
    if b < 0x80 then utf8Valid rest
    else if b < 0xC2 then false
    else if b < 0xE0 then
      match rest with
      | c1 :: r => contB c1 && utf8Valid r
      | [] => false
    else if b = 0xE0 then
      match rest with
      | c1 :: c2 :: r => (0xA0 ≤ c1 && c1 ≤ 0xBF) && contB c2 && utf8Valid r
      | _ => false
    else if b < 0xED then
      match rest with
      | c1 :: c2 :: r => contB c1 && contB c2 && utf8Valid r
      | _ => false
    else if b = 0xED then
      match rest with
      | c1 :: c2 :: r => (0x80 ≤ c1 && c1 ≤ 0x9F) && contB c2 && utf8Valid r
      | _ => false
    else if b < 0xF0 then
      match rest with
      | c1 :: c2 :: r => contB c1 && contB c2 && utf8Valid r
      | _ => false
    else if b = 0xF0 then
      match rest with
      | c1 :: c2 :: c3 :: r => (0x90 ≤ c1 && c1 ≤ 0xBF) && contB c2 && contB c3 && utf8Valid r
      | _ => false
    else if b < 0xF4 then
      match rest with
      | c1 :: c2 :: c3 :: r => contB c1 && contB c2 && contB c3 && utf8Valid r
      | _ => false
    else if b = 0xF4 then
      match rest with
      | c1 :: c2 :: c3 :: r => (0x80 ≤ c1 && c1 ≤ 0x8F) && contB c2 && contB c3 && utf8Valid r
      | _ => false
    else false

/-- `true` iff the byte list has no `\r\n` (13, 10) pair as a substring. -/
def crlfFree : List Nat → Bool
  | [] => true
  | [_] => true
  | a :: b :: t => !(a == 13 && b == 10) && crlfFree (b :: t)

/-- Rust `str::split` with a one-byte separator: every occurrence splits,
empty fields are kept, the result is never empty. -/
def splitSep (sep : Nat) : List Nat → List (List Nat)
  | [] => [[]]
  | b :: rest =>
    if b = sep then [] :: splitSep sep rest
    else
      match splitSep sep rest with
      | t :: ts => (b :: t) :: ts
      | [] => [[b]]

/-- `types.rs::Redirection`, a parsed cluster redirection. -/
inductive Redirection : Type
  | moved (slot : Nat) (host : List Nat) (port : Nat)
  | ask (slot : Nat) (host : List Nat) (port : Nat)
deriving DecidableEq

/-- `utils.rs::string_to_redirection`: exactly three space-separated tokens,
first exactly `MOVED`/`ASK`, second a `u16` slot, third split on `:` into
exactly two parts, the second a `u16` port. -/
def string_to_redirection (s : List Nat) : Except String Redirection :=
  match splitSep 32 s with
  | [p0, p1, p2] =>
    match (if p0 = strBytes "MOVED" then some true
           else if p0 = strBytes "ASK" then some false else none : Option Bool) with
    | none => .error "Invalid redirection kind."
    | some isMoved =>
      match parseU16 p1 with
      | none => .error "Invalid hash slot redirection."
      | some slot =>
        match splitSep 58 p2 with
        | [a0, a1] =>
          match parseU16 a1 with
          | none => .error "Invalid redirection address port."
          | some port =>
            if isMoved then .ok (.moved slot a0 port) else .ok (.ask slot a0 port)
        | _ => .error "Invalid redirection address."
  | _ => .error "Invalid redirection"

/-- `utils.rs::redirection_to_frame`: `format!("{} {} {}:{}", ...)`. -/
def redirection_to_frame (kindTag : List Nat) (slot : Nat) (host : List Nat)
    (port : Nat) : List Nat :=
  kindTag ++ 32 :: natDecimal slot ++ 32 :: host ++ 58 :: natDecimal port

/-- `types.rs::Frame`.  `Moved`/`Ask` carry the redirection text as a string,
exactly as declared in types.rs (`Moved(String)`, `Ask(String)`). -/
inductive Frame : Type
  | simpleString (s : List Nat)
  | error (s : List Nat)
  | integer (i : Int)
  | bulkString (b : List Nat)
  | array (xs : List Frame)
  | moved (s : List Nat)
  | ask (s : List Nat)
  | null

/-- `impl From<Redirection> for Frame` (types.rs): the stored text is
reconstructed from the parsed fields, not taken from the wire. -/
def frameOfRedirection : Redirection → Frame
  | .moved slot host port => .moved (redirection_to_frame (strBytes "MOVED") slot host port)
  | .ask slot host port => .ask (redirection_to_frame (strBytes "ASK") slot host port)

/-- One nibble as a lowercase hex digit byte. -/
def hexDigit (n : Nat) : Nat := if n < 10 then n + 48 else n - 10 + 97

/-- One byte as rendered by the `bytes` crate's `Debug` impl for `Bytes`. -/
def debugByte (b : Nat) : List Nat :=
  if b = 10 then [92, 110]
  else if b = 13 then [92, 114]
  else if b = 9 then [92, 116]
  else if b = 92 ∨ b = 34 then [92, b]
  else if b = 0 then [92, 48]
  else if 0x20 ≤ b ∧ b < 0x7F then [b]
  else [92, 120, hexDigit (b / 16), hexDigit (b % 16)]

/-- The `bytes` crate's `Debug` rendering of a byte payload: `b"..."` with
escapes; used by `Display for Frame` when a bulk string is not UTF-8. -/
def debugBytes (b : List Nat) : List Nat := 98 :: 34 :: ((b.map debugByte).flatten ++ [34])

mutual

/-- `impl fmt::Display for Frame` (types.rs): the bytes written to the
formatter. -/
def displayFrame : Frame → List Nat
  | .simpleString s => s
  | .error m => strBytes "error: " ++ m
  | .integer i => intDecimal i
  | .bulkString b => if utf8Valid b then b else debugBytes b
  | .null => strBytes "(nil)"
  | .array parts => displayParts parts 0
  | .moved s => s
  | .ask s => s

/-- The `Array` arm's `for (i, part) in parts.iter().enumerate()` loop: as in
the source, both the separating space and the child render sit inside the
`if i > 0` guard. -/
def displayParts : List Frame → Nat → List Nat
  | [], _ => []
  | p :: rest, i => (if i > 0 then 32 :: displayFrame p else []) ++ displayParts rest (i + 1)

end

/-- `encode.rs::write_decimal`: formats the value through a fixed 12-byte
stack buffer; a rendering longer than 12 bytes makes the `write!` fail with
an io error (`WriteZero`) before anything reaches the output, so the whole
encode call fails.  On success the digits plus the `\r\n` terminator are
appended. -/
def write_decimal (val : Int) : Option (List Nat) :=
  if (intDecimal val).length ≤ 12 then some (intDecimal val ++ [13, 10]) else none

mutual

/-- `encode.rs::write_value` (and `write_frame`, whose top-level `Array` arm
is byte-for-byte the same as `write_value`'s): the bytes appended for a frame.
The source's `Frame::Moved { slot, host, port }` and `Frame::Ask { .. }` arms
destructure struct fields that the `Frame` enum declared in types.rs
(`Moved(String)`, `Ask(String)`) does not have, so the program as given cannot
encode those variants; they are modelled as failure here, and the byte output
those two arms describe is embedded separately as `write_value_moved` and
`write_value_ask`. -/
def writeValue : Frame → Option (List Nat)
  | .simpleString s => some (43 :: (s ++ [13, 10]))
  | .error s => some (45 :: (s ++ [13, 10]))
  | .integer i =>
    match write_decimal i with
    | some d => some (58 :: d)
    | none => none
  | .null => some (strBytes "$-1\r\n")
  | .bulkString b =>
    match write_decimal (b.length : Int) with
    | some d => some (36 :: (d ++ b ++ [13, 10]))
    | none => none
  | .array xs =>
    match write_decimal (xs.length : Int), writeList xs with
    | some d, some rest => some (42 :: (d ++ rest))
    | _, _ => none
  | .moved _ => none
  | .ask _ => none

/-- The encoder's `for entry in val { write_value(stream, entry)? }` loop. -/
def writeList : List Frame → Option (List Nat)
  | [] => some []
  | x :: xs =>
    match writeValue x, writeList xs with
    | some e, some rest => some (e ++ rest)
    | _, _ => none

end

/-- `encode.rs::encode` starting from an empty buffer: the produced bytes
(the returned `usize` is their length). -/
def encode (f : Frame) : Option (List Nat) := writeValue f

/-- The bytes `encode.rs::write_value` appends for a `Frame::Moved { slot,
host, port }` value (lines 88-92): `-`, `format!("MOVED {} {}:{}", ...)`,
terminator. -/
def write_value_moved (slot : Nat) (host : List Nat) (port : Nat) : List Nat :=
  45 :: (strBytes "MOVED" ++ 32 :: natDecimal slot ++ 32 :: host ++ 58 :: natDecimal port
    ++ [13, 10])

/-- The bytes `encode.rs::write_value` appends for a `Frame::Ask { slot, host,
port }` value (lines 93-97).  As written in the source, this arm also formats
`"MOVED {} {}:{}"`: the kind prefix is `MOVED`, not `ASK`. -/
def write_value_ask (slot : Nat) (host : List Nat) (port : Nat) : List Nat :=
  45 :: (strBytes "MOVED" ++ 32 :: natDecimal slot ++ 32 :: host ++ 58 :: natDecimal port
    ++ [13, 10])

/-- `utils.rs::digits_in_number`.  The source computes
`((d as f64).log10()).floor() as usize + 1`.  For every argument below `10^15`
the nearest double to `log10 d` lies strictly on the same side of every
integer as the exact logarithm (the distance from `log10 d` to the nearest
integer exceeds the rounding error by many orders of magnitude), so on the
domain reachable through the 12-byte `write_decimal` buffer the expression
equals the exact base-10 logarithm, modelled as `Nat.log 10`. -/
def digits_in_number (d : Nat) : Nat := if d = 0 then 1 else Nat.log 10 d + 1

/-- `utils.rs::integer_encode_len`: `1 + digits_in_number(|i|) + 2 + prefix`
with `prefix = 1` for negatives.  The source's `(*i * -1)` overflows only at
`i64::MIN`, a value on which the encoder itself can never succeed; the model
uses the exact magnitude. -/
def integer_encode_len (i : Int) : Nat :=
  1 + digits_in_number (if i < 0 then (-i).toNat else i.toNat) + 2 + (if i < 0 then 1 else 0)

/-! ## Decoder (types.rs parsing helpers, decode.rs entry point) -/

/-- Outcome of a parsing step: a value plus the new cursor position, the
`Error::Incomplete` signal, the `Error::Other` signal, a Rust panic, or
exhaustion of the recursion bound (shown unreachable for `decode`'s bound). -/
inductive PR (α : Type) : Type
  | ok (a : α) (pos : Nat)
  | incomplete
  | other (msg : String)
  | panicked (msg : String)
  | nofuel

/-- `types.rs::get_u8`: one byte at the cursor, advancing it. -/
def getU8 (buf : List Nat) (pos : Nat) : Option (Nat × Nat) :=
  match buf[pos]? with
  | some b => some (b, pos + 1)
  | none => none

/-- `types.rs::peek_u8`: one byte at the cursor, without advancing. -/
def peekU8 (buf : List Nat) (pos : Nat) : Option Nat := buf[pos]?

/-- The scan loop of `types.rs::get_line`: the first index `i` in
`[start, start + steps)` with `buf[i] = \r` and `buf[i+1] = \n`. -/
def findCRLF (buf : List Nat) : Nat → Nat → Option Nat
  | _, 0 => none
  | i, steps + 1 =>
    if buf[i]? = some 13 ∧ buf[i + 1]? = some 10 then some i
    else findCRLF buf (i + 1) steps

/-- `types.rs::get_line`: scan from the cursor to one before the end of the
buffer for `\r\n`; on success return the line and set the cursor after the
`\n`.  (`get_line` is only ever invoked after a successful `get_u8`, so the
source's `len - 1` cannot underflow and saturating `Nat` subtraction agrees
with it.) -/
def getLine (buf : List Nat) (pos : Nat) : Option (List Nat × Nat) :=
  match findCRLF buf pos (buf.length - 1 - pos) with
  | some i => some (subList buf pos i, i + 2)
  | none => none

/-- The `Error::Other` message every malformed-format path produces. -/
def protoErr : String := "protocol error; invalid frame format"

/-- Outcome of `types.rs::get_decimal`. -/
inductive DecRes : Type
  | ok (v : Int) (pos : Nat)
  | incomplete
  | badFormat

/-- `types.rs::get_decimal`: a line, parsed with `atoi::<i64>`. -/
def getDecimal (buf : List Nat) (pos : Nat) : DecRes :=
  match getLine buf pos with
  | none => .incomplete
  | some (line, p) =>
    match atoiInt line with
    | some v => .ok v p
    | none => .badFormat

/-- `Frame::parse`, `+` arm: line, UTF-8 validated. -/
def parseSimple (buf : List Nat) (pos : Nat) : PR Frame :=
  match getLine buf pos with
  | none => .incomplete
  | some (line, p) =>
    if utf8Valid line then .ok (.simpleString line) p else .other protoErr

/-- `Frame::parse`, `-` arm: line, UTF-8 validated, then tried as a
redirection with fallback to a plain error frame. -/
def parseErr (buf : List Nat) (pos : Nat) : PR Frame :=
  match getLine buf pos with
  | none => .incomplete
  | some (line, p) =>
    if utf8Valid line then
      match string_to_redirection line with
      | .ok r => .ok (frameOfRedirection r) p
      | .error _ => .ok (.error line) p
    else .other protoErr

/-- `Frame::parse`, `:` arm. -/
def parseInt (buf : List Nat) (pos : Nat) : PR Frame :=
  match getDecimal buf pos with
  | .ok v p => .ok (.integer v) p
  | .incomplete => .incomplete
  | .badFormat => .other protoErr

/-- `Frame::parse`, `$` arm: peek for the `-1` null sentinel, otherwise a
non-negative length, `len + 2` available bytes, the payload copied out and
the cursor skipped past payload plus terminator. -/
def parseBulk (buf : List Nat) (pos : Nat) : PR Frame :=
  match peekU8 buf pos with
  | none => .incomplete
  | some c =>
    if c = 45 then
      match getLine buf pos with
      | none => .incomplete
      | some (line, p) =>
        if line = [45, 49] then .ok .null p else .other protoErr
    else
      match getDecimal buf pos with
      | .incomplete => .incomplete
      | .badFormat => .other protoErr
      | .ok v p =>
        if v < 0 then .other protoErr
        else if buf.length - p < v.toNat + 2 then .incomplete
        else .ok (.bulkString (subList buf p (p + v.toNat))) (p + (v.toNat + 2))

mutual

/-- `types.rs::Frame::parse`: one-byte tag dispatch.  The wildcard arm of the
source is `unimplemented!()`, a panic.  `fuel` only bounds the recursion
depth; `parseF_no_nofuel` shows any `fuel > buf.length - pos` behaves as the
unbounded source. -/
def parseF : Nat → List Nat → Nat → PR Frame
  | 0, _, _ => .nofuel
  | fuel + 1, buf, pos =>
    match getU8 buf pos with
    | none => .incomplete
    | some (b, p1) =>
      if b = 43 then parseSimple buf p1
      else if b = 45 then parseErr buf p1
      else if b = 58 then parseInt buf p1
      else if b = 36 then parseBulk buf p1
      else if b = 42 then
        match getDecimal buf p1 with
        | .incomplete => .incomplete
        | .badFormat => .other protoErr
        | .ok v p2 =>
          if v < 0 then .other protoErr
          else
            match parseManyF fuel buf p2 v.toNat with
            | .ok xs p3 => .ok (.array xs) p3
            | .incomplete => .incomplete
            | .other m => .other m
            | .panicked m => .panicked m
            | .nofuel => .nofuel
      else .panicked "not implemented"
  termination_by fuel _ _ => (fuel, 0)

/-- The `*` arm's `for _ in 0..len { out.push(Frame::parse(src)?) }` loop. -/
def parseManyF : Nat → List Nat → Nat → Nat → PR (List Frame)
  | _, _, pos, 0 => .ok [] pos
  | fuel, buf, pos, n + 1 =>
    match parseF fuel buf pos with
    | .ok f p =>
      match parseManyF fuel buf p n with
      | .ok xs q => .ok (f :: xs) q
      | .incomplete => .incomplete
      | .other m => .other m
      | .panicked m => .panicked m
      | .nofuel => .nofuel
    | .incomplete => .incomplete
    | .other m => .other m
    | .panicked m => .panicked m
    | .nofuel => .nofuel
  termination_by fuel _ _ n => (fuel, n + 1)

end

/-- Outcome of `decode.rs::decode`: `Ok((frame?, consumed))`, a hard error, a
Rust panic, or recursion-bound exhaustion (unreachable for this bound). -/
inductive DecodeResult : Type
  | ok (f : Option Frame) (n : Nat)
  | error (msg : String)
  | panicked (msg : String)
  | nofuel

/-- `decode.rs::decode`: parse from position 0; `Incomplete` becomes
`Ok((None, 0))`, other errors propagate.  The bound `buf.length + 1` is
sufficient (`parseF_no_nofuel`), so `nofuel` is unreachable. -/
def decode (buf : List Nat) : DecodeResult :=
  match parseF (buf.length + 1) buf 0 with
  | .ok f q => .ok (some f) q
  | .incomplete => .ok none 0
  | .other m => .error m
  | .panicked m => .panicked m
  | .nofuel => .nofuel

/-! ## Cluster key-slot hashing (utils.rs) -/

/-- One shift step of CRC-16/XMODEM (polynomial 0x1021, MSB first). -/
def crcStep (c : Nat) : Nat :=
  if c &&& 0x8000 ≠ 0 then ((c <<< 1) ^^^ 0x1021) &&& 0xFFFF else (c <<< 1) &&& 0xFFFF

/-- Fold one byte into a CRC-16/XMODEM state (xor into the high byte, then
eight shift steps). -/
def crcByte (c b : Nat) : Nat :=
  crcStep (crcStep (crcStep (crcStep (crcStep (crcStep (crcStep (crcStep (c ^^^ (b <<< 8)))))))))

/-- `crc16::State::<XMODEM>::calculate` (init 0, no reflection, no xor-out). -/
def crc16Calc (bytes : List Nat) : Nat := bytes.foldl crcByte 0

/-- `utils.rs::crc16_xmodem`: the CRC reduced modulo 16384. -/
def crc16_xmodem (bytes : List Nat) : Nat := crc16Calc bytes % 16384

/-- Index of the first list element satisfying `p` (`Iterator::enumerate`
search loops of `redis_keyslot`). -/
def firstIdx {α : Type} (p : α → Bool) : List α → Option Nat
  | [] => none
  | a :: l => if p a then some 0 else (firstIdx p l).map (· + 1)

/-- The character suffix after `n` UTF-8 bytes, `none` when `n` is not a
character boundary within the string (Rust `&s[n..]` panics there). -/
def byteDropChars : List Char → Nat → Option (List Char)
  | cs, 0 => some cs
  | [], _ + 1 => none
  | c :: cs, n + 1 =>
    if charSize c ≤ n + 1 then byteDropChars cs (n + 1 - charSize c) else none

/-- Is byte offset `n` a character boundary of the string (including its
end)? -/
def isBoundary (cs : List Char) (n : Nat) : Bool := (byteDropChars cs n).isSome

/-- The UTF-8 bytes of Rust `&s[a..b]`, `none` when the range is invalid or
either end is not a character boundary (Rust panics there). -/
def byteSliceBytes (cs : List Char) (a b : Nat) : Option (List Nat) :=
  if a ≤ b ∧ isBoundary cs a ∧ isBoundary cs b then some (subList (strBytesOf cs) a b)
  else none

/-- `utils.rs::redis_keyslot`.  The source enumerates `key.chars()` (so `i`
and `j` are character indices) but compares them against `key.len()` (a byte
count) and slices `key[i+1..]` / `key[i+1..i+j+1]` (byte ranges); both mixes
are modelled exactly, and a byte slice at a non-boundary — a Rust panic — is
`none`. -/
def redis_keyslot (cs : List Char) : Option Nat :=
  match firstIdx (fun c => c == '{') cs with
  | none => some (crc16_xmodem (strBytesOf cs))
  | some i =>
    if i = (strBytesOf cs).length - 1 then some (crc16_xmodem (strBytesOf cs))
    else
      match byteDropChars cs (i + 1) with
      | none => none
      | some tail =>
        match firstIdx (fun c => c == '}') tail with
        | none => some (crc16_xmodem (strBytesOf cs))
        | some j =>
          if i + j = (strBytesOf cs).length ∨ j = 0 then some (crc16_xmodem (strBytesOf cs))
          else
            match byteSliceBytes cs (i + 1) (i + j + 1) with
            | none => none
            | some sub => some (crc16_xmodem sub)

/-- The slot-selection rule exactly as the specification words it, over the
key's bytes: first `{`; whole key if absent or last; first `}` after it;
whole key if absent or the tag between them is empty; otherwise the tag. -/
def spec_keyslot (bytes : List Nat) : Nat :=
  match firstIdx (fun b => b == 123) bytes with
  | none => crc16_xmodem bytes
  | some i =>
    if i = bytes.length - 1 then crc16_xmodem bytes
    else
      match firstIdx (fun b => b == 125) (bytes.drop (i + 1)) with
      | none => crc16_xmodem bytes
      | some j =>
        if j = 0 then crc16_xmodem bytes
        else crc16_xmodem (subList bytes (i + 1) (i + 1 + j))

/-- The character list of a string literal (Rust `&str` contents). -/
def toChars (s : String) : List Char := s.data

/-! ## Buffer segments -/

/-- The byte list `e` occupies positions `[pos, pos + e.length)` of `buf`. -/
def SegAt (buf : List Nat) (pos : Nat) (e : List Nat) : Prop :=
  ∀ i, i < e.length → buf[pos + i]? = e[i]?

theorem segAt_nil (buf : List Nat) (pos : Nat) : SegAt buf pos [] := by
  intro i hi; simp at hi

theorem segAt_cons {buf : List Nat} {pos b : Nat} {e : List Nat} :
    SegAt buf pos (b :: e) ↔ buf[pos]? = some b ∧ SegAt buf (pos + 1) e := by
  constructor
  · intro h
    refine ⟨by simpa using h 0 (by simp), fun i hi => ?_⟩
    have := h (i + 1) (by simp; omega)
    rw [show pos + (i + 1) = pos + 1 + i by omega] at this
    simpa using this
  · rintro ⟨h0, h⟩ i hi
    cases i with
    | zero => simpa using h0
    | succ i =>
      have := h i (by simp at hi; omega)
      rw [show pos + (i + 1) = pos + 1 + i by omega]
      simpa using this

theorem segAt_append {buf : List Nat} {pos : Nat} {a b : List Nat} :
    SegAt buf pos (a ++ b) ↔ SegAt buf pos a ∧ SegAt buf (pos + a.length) b := by
  induction a generalizing pos with
  | nil =>
    constructor
    · intro h; exact ⟨segAt_nil buf pos, by simpa using h⟩
    · rintro ⟨-, h⟩; simpa using h
  | cons x xs ih =>
    simp only [List.cons_append, segAt_cons, ih, List.length_cons]
    constructor
    · rintro ⟨h0, h1, h2⟩
      refine ⟨⟨h0, h1⟩, ?_⟩
      rw [show pos + (xs.length + 1) = pos + 1 + xs.length by omega]
      exact h2
    · rintro ⟨⟨h0, h1⟩, h2⟩
      refine ⟨h0, h1, ?_⟩
      rw [show pos + 1 + xs.length = pos + (xs.length + 1) by omega]
      exact h2

theorem SegAt.le_length {buf : List Nat} {pos : Nat} {e : List Nat} (h : SegAt buf pos e)
    (hne : 0 < e.length) : pos + e.length ≤ buf.length := by
  have hh := h (e.length - 1) (by omega)
  have h1 : e[e.length - 1]? = some (e.getLast (by cases e with
    | nil => simp at hne
    | cons a l => simp)) := by
    rw [List.getLast_eq_getElem]
    exact List.getElem?_eq_getElem (by omega)
  rw [h1] at hh
  by_contra hlt
  rw [List.getElem?_eq_none_iff.mpr (by omega)] at hh
  exact Option.noConfusion hh

theorem SegAt.subList_eq {buf : List Nat} {pos : Nat} {e : List Nat} (h : SegAt buf pos e) :
    subList buf pos (pos + e.length) = e := by
  apply List.ext_getElem?
  intro i
  rw [subList, List.getElem?_drop, List.getElem?_take]
  by_cases hi : i < e.length
  · rw [if_pos (by omega)]
    exact h i hi
  · rw [if_neg (by omega), eq_comm, List.getElem?_eq_none_iff]
    omega

theorem segAt_refl (e : List Nat) : SegAt e 0 e := by
  intro i _; simp

theorem segAt_of_take_eq {buf buf' : List Nat} {pos : Nat} {e : List Nat} {q : Nat}
    (h : SegAt buf pos e) (hq : pos + e.length ≤ q) (ht : buf'.take q = buf.take q) :
    SegAt buf' pos e := by
  intro i hi
  have h1 : (buf'.take q)[pos + i]? = (buf.take q)[pos + i]? := by rw [ht]
  rw [List.getElem?_take, List.getElem?_take, if_pos (by omega), if_pos (by omega)] at h1
  rw [h1]
  exact h i hi

theorem segAt_append_right {buf pad : List Nat} {pos : Nat} {e : List Nat}
    (h : SegAt buf pos e) (hle : pos + e.length ≤ buf.length) :
    SegAt (buf ++ pad) pos e := by
  intro i hi
  rw [List.getElem?_append_left (by omega)]
  exact h i hi

theorem getElem?_some_lt {l : List Nat} {n b : Nat} (h : l[n]? = some b) : n < l.length := by
  by_contra hc
  rw [List.getElem?_eq_none_iff.mpr (by omega)] at h
  exact Option.noConfusion h

theorem take_eq_imp_getElem?_eq {l l' : List Nat} {q : Nat} (h : l'.take q = l.take q)
    {i : Nat} (hi : i < q) : l'[i]? = l[i]? := by
  have h1 : (l'.take q)[i]? = (l.take q)[i]? := by rw [h]
  rwa [List.getElem?_take, List.getElem?_take, if_pos hi, if_pos hi] at h1

/-! ## Line scanning -/

theorem findCRLF_eq_some {buf : List Nat} {start steps i0 : Nat}
    (h : findCRLF buf start steps = some i0) :
    start ≤ i0 ∧ i0 < start + steps ∧ buf[i0]? = some 13 ∧ buf[i0 + 1]? = some 10 ∧
      ∀ k, start ≤ k → k < i0 → ¬(buf[k]? = some 13 ∧ buf[k + 1]? = some 10) := by
  induction steps generalizing start with
  | zero => simp [findCRLF] at h
  | succ steps ih =>
    rw [findCRLF] at h
    by_cases hp : buf[start]? = some 13 ∧ buf[start + 1]? = some 10
    · rw [if_pos hp] at h
      injection h with h
      subst h
      exact ⟨Nat.le_refl _, by omega, hp.1, hp.2, fun k hk1 hk2 => absurd hk2 (by omega)⟩
    · rw [if_neg hp] at h
      obtain ⟨h1, h2, h3, h4, h5⟩ := ih h
      refine ⟨by omega, by omega, h3, h4, fun k hk1 hk2 => ?_⟩
      rcases Nat.eq_or_lt_of_le hk1 with heq | hlt
      · rw [← heq]; exact hp
      · exact h5 k hlt hk2

theorem findCRLF_eq_some_of {buf : List Nat} {start steps i0 : Nat}
    (h1 : start ≤ i0) (h2 : i0 < start + steps)
    (h3 : buf[i0]? = some 13) (h4 : buf[i0 + 1]? = some 10)
    (h5 : ∀ k, start ≤ k → k < i0 → ¬(buf[k]? = some 13 ∧ buf[k + 1]? = some 10)) :
    findCRLF buf start steps = some i0 := by
  induction steps generalizing start with
  | zero => omega
  | succ steps ih =>
    rw [findCRLF]
    by_cases hp : buf[start]? = some 13 ∧ buf[start + 1]? = some 10
    · rw [if_pos hp]
      rcases Nat.eq_or_lt_of_le h1 with heq | hlt
      · rw [heq]
      · exact absurd hp (h5 start (Nat.le_refl _) hlt)
    · rw [if_neg hp]
      have hne : start ≠ i0 := by
        intro he; subst he; exact hp ⟨h3, h4⟩
      exact ih (by omega) (by omega) (fun k hk1 hk2 => h5 k (by omega) hk2)

theorem findCRLF_eq_none_of {buf : List Nat} {start steps : Nat}
    (h : ∀ k, start ≤ k → k < start + steps → ¬(buf[k]? = some 13 ∧ buf[k + 1]? = some 10)) :
    findCRLF buf start steps = none := by
  induction steps generalizing start with
  | zero => rfl
  | succ steps ih =>
    rw [findCRLF, if_neg (h start (Nat.le_refl _) (by omega))]
    exact ih (fun k hk1 hk2 => h k (by omega) (by omega))

theorem getLine_eq_some {buf : List Nat} {pos : Nat} {line : List Nat} {q : Nat}
    (h : getLine buf pos = some (line, q)) :
    pos + 2 ≤ q ∧ q ≤ buf.length ∧ line = subList buf pos (q - 2) ∧
      buf[q - 2]? = some 13 ∧ buf[q - 1]? = some 10 ∧
      ∀ k, pos ≤ k → k < q - 2 → ¬(buf[k]? = some 13 ∧ buf[k + 1]? = some 10) := by
  rw [getLine] at h
  cases hf : findCRLF buf pos (buf.length - 1 - pos) with
  | none => rw [hf] at h; exact absurd h (by simp)
  | some i0 =>
    rw [hf] at h
    obtain ⟨h1, h2, h3, h4, h5⟩ := findCRLF_eq_some hf
    have hlen : i0 + 1 < buf.length := getElem?_some_lt h4
    injection h with h
    have hl : subList buf pos i0 = line := congrArg Prod.fst h
    have hq : i0 + 2 = q := congrArg Prod.snd h
    subst hq
    refine ⟨by omega, by omega, ?_, ?_, ?_, ?_⟩
    · rw [show i0 + 2 - 2 = i0 by omega, ← hl]
    · rw [show i0 + 2 - 2 = i0 by omega]; exact h3
    · rw [show i0 + 2 - 1 = i0 + 1 by omega]; exact h4
    · rw [show i0 + 2 - 2 = i0 by omega]; exact h5

theorem crlfFree_no_pair {s : List Nat} (h : crlfFree s = true) (j : Nat) :
    ¬(s[j]? = some 13 ∧ s[j + 1]? = some 10) := by
  induction s generalizing j with
  | nil => simp
  | cons a rest ih =>
    have htail : crlfFree rest = true := by
      cases rest with
      | nil => rfl
      | cons b t =>
        rw [crlfFree] at h
        exact (Bool.and_eq_true_iff.mp h).2
    cases j with
    | zero =>
      rintro ⟨h13, h10⟩
      simp only [List.getElem?_cons_zero, Option.some.injEq] at h13
      cases rest with
      | nil => simp at h10
      | cons b t =>
        simp only [List.getElem?_cons_succ, List.getElem?_cons_zero, Option.some.injEq] at h10
        rw [crlfFree, ← h13, ← h10] at h
        simp at h
    | succ j =>
      intro hp
      exact ih htail j (by simpa using hp)

theorem getLine_of_seg {buf : List Nat} {pos : Nat} {s : List Nat}
    (hseg : SegAt buf pos (s ++ [13, 10])) (hfree : crlfFree s = true) :
    getLine buf pos = some (s, pos + s.length + 2) := by
  have hlen : pos + (s ++ [13, 10]).length ≤ buf.length :=
    hseg.le_length (by simp)
  simp only [List.length_append, List.length_cons, List.length_nil] at hlen
  obtain ⟨hs, hterm⟩ := segAt_append.mp hseg
  have h13 : buf[pos + s.length]? = some 13 := by simpa using segAt_cons.mp hterm |>.1
  have h10 : buf[pos + s.length + 1]? = some 10 := by
    have := (segAt_cons.mp (segAt_cons.mp hterm).2).1
    simpa using this
  have hfind : findCRLF buf pos (buf.length - 1 - pos) = some (pos + s.length) := by
    apply findCRLF_eq_some_of (by omega) (by omega) h13 h10
    intro k hk1 hk2
    rintro ⟨hk13, hk10⟩
    have hj : k - pos < s.length := by omega
    have hv13 : s[k - pos]? = some 13 := by
      have := hs (k - pos) hj
      rw [show pos + (k - pos) = k by omega] at this
      rw [← this, hk13]
    by_cases hj1 : k + 1 - pos < s.length
    · have hv10 : s[k + 1 - pos]? = some 10 := by
        have := hs (k + 1 - pos) hj1
        rw [show pos + (k + 1 - pos) = k + 1 by omega] at this
        rw [← this, hk10]
      exact crlfFree_no_pair hfree (k - pos)
        ⟨hv13, by rw [show k - pos + 1 = k + 1 - pos by omega]; exact hv10⟩
    · -- k + 1 = pos + s.length, so buf[k+1]? = 13 ≠ 10
      have hk1eq : k + 1 = pos + s.length := by omega
      rw [hk1eq, h13] at hk10
      exact Option.noConfusion hk10 (fun h => by omega)
  rw [getLine, hfind]
  simp [hs.subList_eq]

theorem getLine_take_eq {buf buf' : List Nat} {pos q : Nat} {line : List Nat}
    (h : getLine buf pos = some (line, q)) (ht : buf'.take q = buf.take q)
    (hlen : q ≤ buf'.length) :
    getLine buf' pos = some (line, q) := by
  obtain ⟨h1, h2, h3, h13, h10, h5⟩ := getLine_eq_some h
  have hfind : findCRLF buf' pos (buf'.length - 1 - pos) = some (q - 2) := by
    apply findCRLF_eq_some_of (by omega) (by omega)
    · rw [take_eq_imp_getElem?_eq ht (by omega)]; exact h13
    · rw [show q - 2 + 1 = q - 1 by omega, take_eq_imp_getElem?_eq ht (by omega)]
      exact h10
    · intro k hk1 hk2
      rw [take_eq_imp_getElem?_eq ht (by omega), take_eq_imp_getElem?_eq ht (by omega)]
      exact h5 k hk1 hk2
  rw [getLine, hfind]
  have hsub : subList buf' pos (q - 2) = subList buf pos (q - 2) := by
    simp only [subList]
    rw [← Nat.min_eq_left (show q - 2 ≤ q by omega), ← List.take_take, ht, List.take_take,
      Nat.min_eq_left (show q - 2 ≤ q by omega)]
  simp only [hsub, ← h3, show q - 2 + 2 = q by omega]

theorem getLine_truncation {buf : List Nat} {pos q k : Nat} {line : List Nat}
    (h : getLine buf pos = some (line, q)) (hk : k < q) :
    getLine (buf.take k) pos = none := by
  obtain ⟨h1, h2, h3, h13, h10, h5⟩ := getLine_eq_some h
  rw [getLine]
  have hfind : findCRLF (buf.take k) pos ((buf.take k).length - 1 - pos) = none := by
    apply findCRLF_eq_none_of
    intro j hj1 hj2
    rintro ⟨hj13, hj10⟩
    rw [List.getElem?_take] at hj13 hj10
    by_cases hjk : j < k
    · by_cases hjk1 : j + 1 < k
      · rw [if_pos hjk] at hj13
        rw [if_pos hjk1] at hj10
        exact h5 j hj1 (by omega) ⟨hj13, hj10⟩
      · rw [if_neg hjk1] at hj10
        exact Option.noConfusion hj10
    · rw [if_neg hjk] at hj13
      exact Option.noConfusion hj13
  rw [hfind]

/-! ## Decimal rendering and numeric parsing -/

theorem natDecimal_unfold (n : Nat) :
    natDecimal n = if n < 10 then [n + 48] else natDecimal (n / 10) ++ [n % 10 + 48] := by
  rw [natDecimal, natDecimalAux]
  by_cases h : n < 10
  · simp [h]
  · rw [if_neg h, if_neg h, natDecimal,
      natDecimalAux_eq_of_le (show n / 10 < n by omega) (Nat.lt_succ_self _)]

theorem natDecimal_ne_nil (n : Nat) : natDecimal n ≠ [] := by
  rw [natDecimal_unfold]
  by_cases h : n < 10 <;> simp [h]

theorem natDecimal_all_digits (n : Nat) : ∀ b ∈ natDecimal n, isDigit b = true := by
  induction n using Nat.strong_induction_on with
  | _ n ih =>
    rw [natDecimal_unfold]
    by_cases h : n < 10
    · rw [if_pos h]
      intro b hb
      simp at hb
      simp [hb, isDigit]
      omega
    · rw [if_neg h]
      intro b hb
      rcases List.mem_append.mp hb with hb | hb
      · exact ih (n / 10) (by omega) b hb
      · simp at hb
        simp [hb, isDigit]
        omega

theorem natDecimal_head_ne_48 {n : Nat} (h : n ≠ 0) : (natDecimal n).head? ≠ some 48 := by
  induction n using Nat.strong_induction_on with
  | _ n ih =>
    rw [natDecimal_unfold]
    by_cases h10 : n < 10
    · rw [if_pos h10]
      intro hc
      simp at hc
      omega
    · rw [if_neg h10]
      rw [List.head?_append_of_ne_nil _ (natDecimal_ne_nil (n / 10))]
      exact ih (n / 10) (by omega) (by omega)

theorem digitsVal_from (v : Nat) (l : List Nat) :
    l.foldl (fun v b => v * 10 + (b - 48)) v = v * 10 ^ l.length + digitsVal l := by
  induction l generalizing v with
  | nil => simp [digitsVal]
  | cons b t ih =>
    simp only [List.foldl_cons, digitsVal, List.length_cons]
    rw [ih (v * 10 + (b - 48)), ih (0 * 10 + (b - 48))]
    ring

theorem digitsVal_cons (b : Nat) (t : List Nat) :
    digitsVal (b :: t) = (b - 48) * 10 ^ t.length + digitsVal t := by
  rw [digitsVal, List.foldl_cons, digitsVal_from]
  ring_nf

theorem digitsVal_append_single (a : List Nat) (d : Nat) :
    digitsVal (a ++ [d]) = digitsVal a * 10 + (d - 48) := by
  rw [digitsVal, List.foldl_append, ← digitsVal, List.foldl_cons, List.foldl_nil]

theorem digitsVal_lt (l : List Nat) (h : ∀ b ∈ l, isDigit b = true) :
    digitsVal l < 10 ^ l.length := by
  induction l with
  | nil => simp [digitsVal]
  | cons b t ih =>
    rw [digitsVal_cons]
    have hb := h b (by simp)
    simp [isDigit] at hb
    have ht := ih (fun x hx => h x (by simp [hx]))
    have : b - 48 ≤ 9 := by omega
    calc (b - 48) * 10 ^ t.length + digitsVal t
        ≤ 9 * 10 ^ t.length + digitsVal t := by
          exact Nat.add_le_add_right (Nat.mul_le_mul_right _ this) _
      _ < 9 * 10 ^ t.length + 10 ^ t.length := by omega
      _ = 10 ^ (b :: t).length := by rw [List.length_cons, pow_succ]; ring

theorem digitsVal_natDecimal (n : Nat) : digitsVal (natDecimal n) = n := by
  induction n using Nat.strong_induction_on with
  | _ n ih =>
    rw [natDecimal_unfold]
    by_cases h : n < 10
    · rw [if_pos h, digitsVal, List.foldl_cons, List.foldl_nil]
      omega
    · rw [if_neg h, digitsVal_append_single, ih (n / 10) (by omega)]
      omega

theorem natDecimal_length_le {n k : Nat} (hk : 0 < k) (h : n < 10 ^ k) :
    (natDecimal n).length ≤ k := by
  induction k generalizing n with
  | zero => omega
  | succ k ih =>
    rw [natDecimal_unfold]
    by_cases h10 : n < 10
    · simp [h10]
    · rw [if_neg h10]
      rw [List.length_append, List.length_cons, List.length_nil]
      have hk0 : 0 < k := by
        by_contra hc
        have : k = 0 := by omega
        subst this
        simp at h
        omega
      have : n / 10 < 10 ^ k := by
        rw [pow_succ] at h
        omega
      have := ih hk0 this
      omega

theorem natDecimal_lt (n : Nat) : n < 10 ^ (natDecimal n).length := by
  conv_lhs => rw [← digitsVal_natDecimal n]
  exact digitsVal_lt _ (natDecimal_all_digits n)

theorem natDecimal_length_log {n : Nat} (h : n ≠ 0) :
    (natDecimal n).length = Nat.log 10 n + 1 := by
  induction n using Nat.strong_induction_on with
  | _ n ih =>
    rw [natDecimal_unfold]
    by_cases h10 : n < 10
    · rw [if_pos h10]
      simp [Nat.log_eq_zero_iff, h10]
    · rw [if_neg h10, List.length_append, List.length_cons, List.length_nil,
        ih (n / 10) (by omega) (by omega)]
      have hlog : Nat.log 10 (n / 10) = Nat.log 10 n - 1 := Nat.log_div_base 10 n
      have hpos : 0 < Nat.log 10 n := Nat.log_pos (by omega) (by omega)
      omega

theorem no13_crlfFree {s : List Nat} (h : ∀ b ∈ s, b ≠ 13) : crlfFree s = true := by
  induction s with
  | nil => rfl
  | cons a t ih =>
    cases t with
    | nil => rfl
    | cons b u =>
      rw [crlfFree]
      have ha := h a (by simp)
      have ht : crlfFree (b :: u) = true := ih (fun x hx => h x (by simp [List.mem_cons] at hx ⊢; tauto))
      rw [ht]
      simp [ha]

theorem digits_crlfFree {s : List Nat} (h : ∀ b ∈ s, isDigit b = true) :
    crlfFree s = true := by
  apply no13_crlfFree
  intro b hb
  have := h b hb
  simp [isDigit] at this
  omega

theorem takeWhile_isDigit_all {l : List Nat} (h : ∀ b ∈ l, isDigit b = true) :
    l.takeWhile isDigit = l := by
  induction l with
  | nil => rfl
  | cons b t ih =>
    rw [List.takeWhile_cons, if_pos (h b (by simp)), ih (fun x hx => h x (by simp [hx]))]

theorem atoiSign_of_digit {b : Nat} {rest : List Nat} (h43 : b ≠ 43) (h45 : b ≠ 45) :
    atoiSign (b :: rest) = (1, b :: rest) := by
  rw [atoiSign, if_neg h43, if_neg h45]

theorem atoiInt_natDecimal {n : Nat} (h : n < 2 ^ 63) :
    atoiInt (natDecimal n) = some (n : Int) := by
  have hdig := natDecimal_all_digits n
  have hsign : atoiSign (natDecimal n) = (1, natDecimal n) := by
    obtain ⟨b, t, hbt⟩ : ∃ b t, natDecimal n = b :: t := by
      cases hh : natDecimal n with
      | nil => exact absurd hh (natDecimal_ne_nil n)
      | cons b t => exact ⟨b, t, rfl⟩
    have hb : 48 ≤ b ∧ b ≤ 57 := by
      have := hdig b (by rw [hbt]; simp)
      simpa [isDigit] using this
    rw [hbt]
    exact atoiSign_of_digit (by omega) (by omega)
  rw [atoiInt]
  simp only [hsign, takeWhile_isDigit_all hdig]
  rw [if_neg (natDecimal_ne_nil n)]
  simp only [digitsVal_natDecimal, one_mul]
  rw [if_pos]
  refine ⟨?_, ?_⟩ <;> omega

theorem atoiInt_neg_natDecimal {n : Nat} (h0 : 0 < n) (h : n ≤ 2 ^ 63) :
    atoiInt (45 :: natDecimal n) = some (-(n : Int)) := by
  have hdig := natDecimal_all_digits n
  have hsign : atoiSign (45 :: natDecimal n) = (-1, natDecimal n) := by
    rw [atoiSign, if_neg (by omega), if_pos rfl]
  rw [atoiInt]
  simp only [hsign, takeWhile_isDigit_all hdig]
  rw [if_neg (natDecimal_ne_nil n)]
  simp only [digitsVal_natDecimal, neg_one_mul]
  rw [if_pos]
  refine ⟨?_, ?_⟩ <;> omega

theorem atoiInt_intDecimal {i : Int} (hlo : -(2 ^ 63) ≤ i) (hhi : i ≤ 2 ^ 63 - 1) :
    atoiInt (intDecimal i) = some i := by
  rw [intDecimal]
  by_cases hneg : i < 0
  · rw [if_pos hneg]
    have h1 : 0 < (-i).toNat := by omega
    have h2 : (-i).toNat ≤ 2 ^ 63 := by omega
    rw [atoiInt_neg_natDecimal h1 h2]
    congr 1
    omega
  · rw [if_neg hneg]
    have hn : i.toNat < 2 ^ 63 := by omega
    rw [atoiInt_natDecimal hn]
    congr 1
    omega

theorem intDecimal_nonneg (n : Nat) : intDecimal (n : Int) = natDecimal n := by
  rw [intDecimal, if_neg (by omega)]
  congr 1

theorem parseU16_eq_some {l : List Nat} {v : Nat} (h : parseU16 l = some v) :
    ∀ b ∈ l, b = 43 ∨ (48 ≤ b ∧ b ≤ 57) := by
  intro b hb
  rw [parseU16] at h
  by_cases hd : parseU16Digits l = []
  · rw [if_pos hd] at h; exact absurd h (by simp)
  · rw [if_neg hd] at h
    by_cases hall : (parseU16Digits l).all isDigit
    · cases l with
      | nil => simp at hb
      | cons a rest =>
        rw [parseU16Digits] at hall
        by_cases ha : a = 43
        · rw [if_pos ha] at hall
          rcases List.mem_cons.mp hb with hba | hbr
          · left; rw [hba, ha]
          · right
            have := List.all_eq_true.mp hall b hbr
            simpa [isDigit] using this
        · rw [if_neg ha] at hall
          right
          have := List.all_eq_true.mp hall b hb
          simpa [isDigit] using this
    · rw [if_neg hall] at h; exact absurd h (by simp)

theorem parseU16_no_32 {l : List Nat} {v : Nat} (h : parseU16 l = some v) : 32 ∉ l := by
  intro hm
  rcases parseU16_eq_some h 32 hm with h1 | h1 <;> omega

theorem parseU16_no_58 {l : List Nat} {v : Nat} (h : parseU16 l = some v) : 58 ∉ l := by
  intro hm
  rcases parseU16_eq_some h 58 hm with h1 | h1 <;> omega

theorem parseU16_leading_zero {t : List Nat} {v : Nat} (h : parseU16 t = some v)
    (h0 : t.head? = some 48) (hlen : 2 ≤ t.length) : natDecimal v ≠ t := by
  obtain ⟨t', ht⟩ : ∃ t', t = 48 :: t' := by
    cases t with
    | nil => simp at h0
    | cons a rest =>
      simp at h0
      exact ⟨rest, by rw [h0]⟩
  subst ht
  have hred : parseU16Digits (48 :: t') = 48 :: t' := by
    rw [parseU16Digits, if_neg (by omega)]
  rw [parseU16] at h
  simp only [hred] at h
  rw [if_neg (show ¬(48 :: t' = []) by simp)] at h
  by_cases hall : (48 :: t').all isDigit = true
  · rw [if_pos hall] at h
    by_cases hbound : digitsVal (48 :: t') ≤ 65535
    · rw [if_pos hbound] at h
      have hv : v = digitsVal (48 :: t') := by
        injection h with h
        omega
      by_cases hv0 : v = 0
      · subst hv0
        intro hc
        have hl1 : (natDecimal 0).length = (48 :: t').length := by rw [hc]
        rw [show natDecimal 0 = [48] from rfl] at hl1
        simp only [List.length_cons, List.length_nil] at hl1 hlen
        omega
      · intro hc
        apply natDecimal_head_ne_48 hv0
        rw [hc]
        rfl
    · rw [if_neg hbound] at h; exact absurd h (by simp)
  · rw [if_neg hall] at h
    exact absurd h (by simp)

/-! ## Splitting and redirection parsing -/

theorem splitSep_no_sep {sep : Nat} {l : List Nat} (h : sep ∉ l) : splitSep sep l = [l] := by
  induction l with
  | nil => rfl
  | cons b rest ih =>
    have hb : ¬(b = sep) := fun he => h (by simp [he])
    rw [splitSep, if_neg hb, ih (fun hm => h (by simp [hm]))]

theorem splitSep_append {sep : Nat} {a : List Nat} (b : List Nat) (h : sep ∉ a) :
    splitSep sep (a ++ sep :: b) = a :: splitSep sep b := by
  induction a with
  | nil => rw [List.nil_append, splitSep, if_pos rfl]
  | cons x xs ih =>
    have hx : ¬(x = sep) := fun he => h (by simp [he])
    rw [List.cons_append, splitSep, if_neg hx, ih (fun hm => h (by simp [hm]))]

theorem append_sep_inj {sep : Nat} {a a' x y : List Nat} (ha : sep ∉ a) (ha' : sep ∉ a')
    (h : a ++ sep :: x = a' ++ sep :: y) : a = a' ∧ x = y := by
  induction a generalizing a' with
  | nil =>
    cases a' with
    | nil => simpa using h
    | cons z zs =>
      rw [List.nil_append, List.cons_append] at h
      injection h with h1 h2
      exact absurd (by simp [← h1]) ha'
  | cons w ws ih =>
    cases a' with
    | nil =>
      rw [List.nil_append, List.cons_append] at h
      injection h with h1 h2
      exact absurd (by simp [h1]) ha
    | cons z zs =>
      rw [List.cons_append, List.cons_append] at h
      injection h with h1 h2
      have := ih (fun hm => ha (by simp [hm])) (fun hm => ha' (by simp [hm])) h2
      exact ⟨by rw [h1, this.1], this.2⟩

/-- The token for a redirection kind (`true` = `MOVED`). -/
def kindTag : Bool → List Nat
  | true => strBytes "MOVED"
  | false => strBytes "ASK"

/-- The `Redirection` value for a kind and its fields. -/
def mkRedirection : Bool → Nat → List Nat → Nat → Redirection
  | true, slot, host, port => .moved slot host port
  | false, slot, host, port => .ask slot host port

theorem string_to_redirection_ok {isMoved : Bool} {s h p : List Nat} {sv pv : Nat}
    (hs : parseU16 s = some sv) (hp : parseU16 p = some pv)
    (hh32 : 32 ∉ h) (hh58 : 58 ∉ h) :
    string_to_redirection (kindTag isMoved ++ (32 :: (s ++ (32 :: (h ++ (58 :: p)))))) =
      .ok (mkRedirection isMoved sv h pv) := by
  have hkt32 : 32 ∉ kindTag isMoved := by cases isMoved <;> decide
  have hs32 : 32 ∉ s := parseU16_no_32 hs
  have hp32 : 32 ∉ p := parseU16_no_32 hp
  have hp58 : 58 ∉ p := parseU16_no_58 hp
  have hY32 : 32 ∉ h ++ (58 :: p) := by
    intro hm
    rcases List.mem_append.mp hm with hm | hm
    · exact hh32 hm
    · rcases List.mem_cons.mp hm with hm | hm
      · omega
      · exact hp32 hm
  have hsplit : splitSep 32 (kindTag isMoved ++ (32 :: (s ++ (32 :: (h ++ (58 :: p)))))) =
      [kindTag isMoved, s, h ++ (58 :: p)] := by
    rw [splitSep_append _ hkt32, splitSep_append _ hs32, splitSep_no_sep hY32]
  have hsplit58 : splitSep 58 (h ++ (58 :: p)) = [h, p] := by
    rw [splitSep_append _ hh58, splitSep_no_sep hp58]
  cases isMoved with
  | true =>
    rw [string_to_redirection, hsplit]
    simp only [kindTag, eq_self_iff_true, if_true, hs, hsplit58, hp, mkRedirection]
  | false =>
    have hne : ¬(strBytes "ASK" = strBytes "MOVED") := by decide
    rw [string_to_redirection, hsplit]
    simp only [kindTag, hne, if_false, eq_self_iff_true, if_true, hs, hsplit58, hp, mkRedirection]
    rfl

/-! ## Per-branch decoder lemmas -/

theorem subList_take_eq {buf buf' : List Nat} {q a b : Nat}
    (ht : buf'.take q = buf.take q) (hb : b ≤ q) : subList buf' a b = subList buf a b := by
  simp only [subList]
  rw [← Nat.min_eq_left hb, ← List.take_take, ht, List.take_take, Nat.min_eq_left hb]

theorem atoiInt_ne_nil {v : Int} (h : atoiInt [] = some v) : False := by
  rw [atoiInt] at h
  exact Option.noConfusion h

theorem getDecimal_eq_ok {buf : List Nat} {pos : Nat} {v : Int} {p : Nat}
    (h : getDecimal buf pos = .ok v p) :
    ∃ line, getLine buf pos = some (line, p) ∧ atoiInt line = some v := by
  rw [getDecimal] at h
  cases hl : getLine buf pos with
  | none => simp only [hl] at h; exact DecRes.noConfusion h
  | some lp =>
    obtain ⟨line, p'⟩ := lp
    simp only [hl] at h
    cases ha : atoiInt line with
    | none => simp only [ha] at h; exact DecRes.noConfusion h
    | some v' =>
      simp only [ha] at h
      injection h with h1 h2
      exact ⟨line, by rw [h2], by rw [ha, h1]⟩

theorem getDecimal_bound {buf : List Nat} {pos : Nat} {v : Int} {p : Nat}
    (h : getDecimal buf pos = .ok v p) : pos + 3 ≤ p ∧ p ≤ buf.length := by
  obtain ⟨line, hl, ha⟩ := getDecimal_eq_ok h
  obtain ⟨h1, h2, h3, -, -, -⟩ := getLine_eq_some hl
  have hne : line ≠ [] := by
    intro he
    subst he
    exact atoiInt_ne_nil ha
  have : line.length ≠ 0 := fun he => hne (List.eq_nil_of_length_eq_zero he)
  have hlen : line.length = p - 2 - pos := by
    rw [h3, subList, List.length_drop, List.length_take]
    have : p - 2 ≤ buf.length := by omega
    omega
  omega

theorem getDecimal_take_eq {buf buf' : List Nat} {pos : Nat} {v : Int} {p q : Nat}
    (h : getDecimal buf pos = .ok v p) (hp : p ≤ q) (ht : buf'.take q = buf.take q)
    (hlen : q ≤ buf'.length) : getDecimal buf' pos = .ok v p := by
  obtain ⟨line, hl, ha⟩ := getDecimal_eq_ok h
  have ht' : buf'.take p = buf.take p := by
    rw [← Nat.min_eq_left hp, ← List.take_take, ht, List.take_take, Nat.min_eq_left hp]
  rw [getDecimal, getLine_take_eq hl ht' (by omega)]
  simp only [ha]

theorem getDecimal_truncation {buf : List Nat} {pos : Nat} {v : Int} {p k : Nat}
    (h : getDecimal buf pos = .ok v p) (hk : k < p) :
    getDecimal (buf.take k) pos = .incomplete := by
  obtain ⟨line, hl, -⟩ := getDecimal_eq_ok h
  rw [getDecimal, getLine_truncation hl hk]

theorem getDecimal_incomplete_truncation {buf : List Nat} {pos : Nat} {v : Int} {p k : Nat}
    (h : getDecimal buf pos = .ok v p) (hk : k < p) :
    getLine (buf.take k) pos = none := by
  obtain ⟨line, hl, -⟩ := getDecimal_eq_ok h
  exact getLine_truncation hl hk

theorem parseSimple_bound {buf : List Nat} {pos : Nat} {f : Frame} {q : Nat}
    (h : parseSimple buf pos = .ok f q) : pos + 2 ≤ q ∧ q ≤ buf.length := by
  rw [parseSimple] at h
  cases hl : getLine buf pos with
  | none => simp only [hl] at h; exact PR.noConfusion h
  | some lp =>
    obtain ⟨line, p⟩ := lp
    simp only [hl] at h
    obtain ⟨h1, h2, -, -, -, -⟩ := getLine_eq_some hl
    by_cases hu : utf8Valid line = true
    · rw [if_pos hu] at h
      injection h with h1' h2'
      omega
    · rw [if_neg hu] at h
      exact PR.noConfusion h

theorem parseSimple_take_eq {buf buf' : List Nat} {pos : Nat} {f : Frame} {q q' : Nat}
    (h : parseSimple buf pos = .ok f q) (hq : q ≤ q') (ht : buf'.take q' = buf.take q')
    (hlen : q' ≤ buf'.length) : parseSimple buf' pos = .ok f q := by
  rw [parseSimple] at h ⊢
  cases hl : getLine buf pos with
  | none => simp only [hl] at h; exact PR.noConfusion h
  | some lp =>
    obtain ⟨line, p⟩ := lp
    simp only [hl] at h
    have hq2 : p = q := by
      by_cases hu : utf8Valid line = true
      · rw [if_pos hu] at h; simp only [PR.ok.injEq] at h; exact h.2
      · rw [if_neg hu] at h; exact PR.noConfusion h
    subst hq2
    have ht' : buf'.take p = buf.take p := by
      rw [← Nat.min_eq_left hq, ← List.take_take, ht, List.take_take, Nat.min_eq_left hq]
    rw [getLine_take_eq hl ht' (by omega)]
    exact h

theorem parseSimple_truncation {buf : List Nat} {pos : Nat} {f : Frame} {q k : Nat}
    (h : parseSimple buf pos = .ok f q) (hk : k < q) :
    parseSimple (buf.take k) pos = .incomplete := by
  rw [parseSimple] at h ⊢
  cases hl : getLine buf pos with
  | none => simp only [hl] at h; exact PR.noConfusion h
  | some lp =>
    obtain ⟨line, p⟩ := lp
    simp only [hl] at h
    have hq2 : p = q := by
      by_cases hu : utf8Valid line = true
      · rw [if_pos hu] at h; simp only [PR.ok.injEq] at h; exact h.2
      · rw [if_neg hu] at h; exact PR.noConfusion h
    subst hq2
    rw [getLine_truncation hl hk]

theorem parseErr_bound {buf : List Nat} {pos : Nat} {f : Frame} {q : Nat}
    (h : parseErr buf pos = .ok f q) : pos + 2 ≤ q ∧ q ≤ buf.length := by
  rw [parseErr] at h
  cases hl : getLine buf pos with
  | none => simp only [hl] at h; exact PR.noConfusion h
  | some lp =>
    obtain ⟨line, p⟩ := lp
    simp only [hl] at h
    obtain ⟨h1, h2, -, -, -, -⟩ := getLine_eq_some hl
    by_cases hu : utf8Valid line = true
    · rw [if_pos hu] at h
      cases hr : string_to_redirection line with
      | ok r =>
        simp only [hr] at h
        injection h with h1' h2'
        omega
      | error m =>
        simp only [hr] at h
        injection h with h1' h2'
        omega
    · rw [if_neg hu] at h
      exact PR.noConfusion h

theorem parseErr_pos_eq {buf : List Nat} {pos : Nat} {f : Frame} {q : Nat}
    (h : parseErr buf pos = .ok f q) :
    ∃ line, getLine buf pos = some (line, q) := by
  rw [parseErr] at h
  cases hl : getLine buf pos with
  | none => simp only [hl] at h; exact PR.noConfusion h
  | some lp =>
    obtain ⟨line, p⟩ := lp
    simp only [hl] at h
    refine ⟨line, ?_⟩
    by_cases hu : utf8Valid line = true
    · rw [if_pos hu] at h
      cases hr : string_to_redirection line with
      | ok r =>
        simp only [hr] at h
        simp only [PR.ok.injEq] at h
        rw [h.2]
      | error m =>
        simp only [hr] at h
        simp only [PR.ok.injEq] at h
        rw [h.2]
    · rw [if_neg hu] at h
      exact PR.noConfusion h

theorem parseErr_take_eq {buf buf' : List Nat} {pos : Nat} {f : Frame} {q q' : Nat}
    (h : parseErr buf pos = .ok f q) (hq : q ≤ q') (ht : buf'.take q' = buf.take q')
    (hlen : q' ≤ buf'.length) : parseErr buf' pos = .ok f q := by
  obtain ⟨line, hl⟩ := parseErr_pos_eq h
  rw [parseErr] at h ⊢
  simp only [hl] at h
  have ht' : buf'.take q = buf.take q := by
    rw [← Nat.min_eq_left hq, ← List.take_take, ht, List.take_take, Nat.min_eq_left hq]
  rw [getLine_take_eq hl ht' (by omega)]
  exact h

theorem parseErr_truncation {buf : List Nat} {pos : Nat} {f : Frame} {q k : Nat}
    (h : parseErr buf pos = .ok f q) (hk : k < q) :
    parseErr (buf.take k) pos = .incomplete := by
  obtain ⟨line, hl⟩ := parseErr_pos_eq h
  rw [parseErr, getLine_truncation hl hk]

theorem parseInt_eq_ok {buf : List Nat} {pos : Nat} {f : Frame} {q : Nat}
    (h : parseInt buf pos = .ok f q) :
    ∃ v, getDecimal buf pos = .ok v q ∧ f = .integer v := by
  rw [parseInt] at h
  cases hd : getDecimal buf pos with
  | ok v p =>
    simp only [hd] at h
    injection h with h1 h2
    exact ⟨v, by rw [h2], h1.symm⟩
  | incomplete => simp only [hd] at h; exact PR.noConfusion h
  | badFormat => simp only [hd] at h; exact PR.noConfusion h

theorem parseInt_bound {buf : List Nat} {pos : Nat} {f : Frame} {q : Nat}
    (h : parseInt buf pos = .ok f q) : pos + 3 ≤ q ∧ q ≤ buf.length := by
  obtain ⟨v, hd, -⟩ := parseInt_eq_ok h
  exact getDecimal_bound hd

theorem parseInt_take_eq {buf buf' : List Nat} {pos : Nat} {f : Frame} {q q' : Nat}
    (h : parseInt buf pos = .ok f q) (hq : q ≤ q') (ht : buf'.take q' = buf.take q')
    (hlen : q' ≤ buf'.length) : parseInt buf' pos = .ok f q := by
  obtain ⟨v, hd, hf⟩ := parseInt_eq_ok h
  subst hf
  rw [parseInt, getDecimal_take_eq hd hq ht hlen]

theorem parseInt_truncation {buf : List Nat} {pos : Nat} {f : Frame} {q k : Nat}
    (h : parseInt buf pos = .ok f q) (hk : k < q) :
    parseInt (buf.take k) pos = .incomplete := by
  obtain ⟨v, hd, -⟩ := parseInt_eq_ok h
  rw [parseInt, getDecimal_truncation hd hk]

/-- Decomposition of a successful `$` branch. -/
theorem parseBulk_eq_ok {buf : List Nat} {pos : Nat} {f : Frame} {q : Nat}
    (h : parseBulk buf pos = .ok f q) :
    (buf[pos]? = some 45 ∧ getLine buf pos = some ([45, 49], q) ∧ f = .null) ∨
    (∃ c v p, buf[pos]? = some c ∧ ¬(c = 45) ∧ getDecimal buf pos = .ok v p ∧ ¬(v < 0) ∧
      ¬(buf.length - p < v.toNat + 2) ∧ f = .bulkString (subList buf p (p + v.toNat)) ∧
      q = p + (v.toNat + 2)) := by
  rw [parseBulk, peekU8] at h
  cases hc : buf[pos]? with
  | none =>
    simp only [hc] at h
    exact PR.noConfusion h
  | some c =>
    simp only [hc] at h
    by_cases hc45 : c = 45
    · left
      rw [if_pos hc45] at h
      cases hl : getLine buf pos with
      | none =>
        simp only [hl] at h
        exact PR.noConfusion h
      | some lp =>
        obtain ⟨line, p⟩ := lp
        simp only [hl] at h
        by_cases hline : line = [45, 49]
        · rw [if_pos hline] at h
          simp only [PR.ok.injEq] at h
          subst hline
          exact ⟨by rw [hc45], by rw [h.2], h.1.symm⟩
        · rw [if_neg hline] at h
          exact PR.noConfusion h
    · right
      rw [if_neg hc45] at h
      cases hd : getDecimal buf pos with
      | incomplete =>
        simp only [hd] at h
        exact PR.noConfusion h
      | badFormat =>
        simp only [hd] at h
        exact PR.noConfusion h
      | ok v p =>
        simp only [hd] at h
        by_cases hv : v < 0
        · rw [if_pos hv] at h
          exact PR.noConfusion h
        · rw [if_neg hv] at h
          by_cases hrem : buf.length - p < v.toNat + 2
          · rw [if_pos hrem] at h
            exact PR.noConfusion h
          · rw [if_neg hrem] at h
            simp only [PR.ok.injEq] at h
            exact ⟨c, v, p, rfl, hc45, rfl, hv, hrem, h.1.symm, h.2.symm⟩

theorem parseBulk_bound {buf : List Nat} {pos : Nat} {f : Frame} {q : Nat}
    (h : parseBulk buf pos = .ok f q) : pos + 2 ≤ q ∧ q ≤ buf.length := by
  rcases parseBulk_eq_ok h with ⟨-, hl, -⟩ | ⟨c, v, p, -, -, hd, -, hrem, -, hq⟩
  · obtain ⟨h1, h2, -, -, -, -⟩ := getLine_eq_some hl
    omega
  · obtain ⟨h1, h2⟩ := getDecimal_bound hd
    omega

theorem parseBulk_take_eq {buf buf' : List Nat} {pos : Nat} {f : Frame} {q q' : Nat}
    (h : parseBulk buf pos = .ok f q) (hq : q ≤ q') (ht : buf'.take q' = buf.take q')
    (hlen : q' ≤ buf'.length) : parseBulk buf' pos = .ok f q := by
  have hb := parseBulk_bound h
  rcases parseBulk_eq_ok h with ⟨hc, hl, hf⟩ | ⟨c, v, p, hc, hc45, hd, hv, hrem, hf, hqe⟩
  · rw [parseBulk, peekU8, take_eq_imp_getElem?_eq ht (by omega)]
    simp only [hc, if_true]
    have ht' : buf'.take q = buf.take q := by
      rw [← Nat.min_eq_left hq, ← List.take_take, ht, List.take_take, Nat.min_eq_left hq]
    simp only [getLine_take_eq hl ht' (by omega), if_true]
    rw [hf]
  · obtain ⟨hd1, hd2⟩ := getDecimal_bound hd
    rw [parseBulk, peekU8, take_eq_imp_getElem?_eq ht (by omega)]
    simp only [hc]
    rw [if_neg hc45]
    simp only [getDecimal_take_eq hd (show p ≤ q' by omega) ht hlen]
    rw [if_neg hv, if_neg (show ¬(buf'.length - p < v.toNat + 2) by omega)]
    rw [subList_take_eq ht (show p + v.toNat ≤ q' by omega)]
    rw [hf, hqe]

theorem parseBulk_truncation {buf : List Nat} {pos : Nat} {f : Frame} {q k : Nat}
    (h : parseBulk buf pos = .ok f q) (hk : k < q) :
    parseBulk (buf.take k) pos = .incomplete := by
  have hb := parseBulk_bound h
  by_cases hpk : pos < k
  case neg =>
    rw [parseBulk, peekU8, List.getElem?_take, if_neg hpk]
  case pos =>
    rcases parseBulk_eq_ok h with ⟨hc, hl, -⟩ | ⟨c, v, p, hc, hc45, hd, hv, hrem, -, hqe⟩
    · rw [parseBulk, peekU8, List.getElem?_take, if_pos hpk]
      simp only [hc, if_true]
      rw [getLine_truncation hl hk]
    · obtain ⟨hd1, hd2⟩ := getDecimal_bound hd
      rw [parseBulk, peekU8, List.getElem?_take, if_pos hpk]
      simp only [hc]
      rw [if_neg hc45]
      by_cases hkp : k < p
      · rw [getDecimal_truncation hd hkp]
      · have ht' : (buf.take k).take p = buf.take p := by
          rw [List.take_take, Nat.min_eq_left (by omega)]
        have hlen' : p ≤ (buf.take k).length := by
          rw [List.length_take]
          omega
        simp only [getDecimal_take_eq hd (Nat.le_refl p) ht' hlen']
        rw [if_neg hv, if_pos (show (buf.take k).length - p < v.toNat + 2 by
          rw [List.length_take]
          omega)]

/-! ## Global parse lemmas (fuel induction) -/

theorem parse_bound_all : ∀ fuel : Nat,
    (∀ buf pos f q, parseF fuel buf pos = .ok f q → pos < q ∧ q ≤ buf.length) ∧
    (∀ n buf pos xs q, parseManyF fuel buf pos n = .ok xs q →
      pos ≤ q ∧ (q ≤ buf.length ∨ q = pos)) := by
  intro fuel
  induction fuel with
  | zero =>
    constructor
    · intro buf pos f q h
      simp only [parseF] at h
      exact PR.noConfusion h
    · intro n buf pos xs q h
      cases n with
      | zero =>
        simp only [parseManyF, PR.ok.injEq] at h
        exact ⟨by omega, Or.inr h.2.symm⟩
      | succ n =>
        simp only [parseManyF, parseF] at h
        exact PR.noConfusion h
  | succ fuel ih =>
    have hA : ∀ buf pos f q, parseF (fuel + 1) buf pos = .ok f q →
        pos < q ∧ q ≤ buf.length := by
      intro buf pos f q h
      simp only [parseF, getU8] at h
      cases hg : buf[pos]? with
      | none =>
        simp only [hg] at h
        exact PR.noConfusion h
      | some b =>
        have hpos : pos < buf.length := getElem?_some_lt hg
        simp only [hg] at h
        by_cases h43 : b = 43
        · rw [if_pos h43] at h
          have := parseSimple_bound h
          omega
        · rw [if_neg h43] at h
          by_cases h45 : b = 45
          · rw [if_pos h45] at h
            have := parseErr_bound h
            omega
          · rw [if_neg h45] at h
            by_cases h58 : b = 58
            · rw [if_pos h58] at h
              have := parseInt_bound h
              omega
            · rw [if_neg h58] at h
              by_cases h36 : b = 36
              · rw [if_pos h36] at h
                have := parseBulk_bound h
                omega
              · rw [if_neg h36] at h
                by_cases h42 : b = 42
                · rw [if_pos h42] at h
                  cases hd : getDecimal buf (pos + 1) with
                  | incomplete =>
                    simp only [hd] at h
                    exact PR.noConfusion h
                  | badFormat =>
                    simp only [hd] at h
                    exact PR.noConfusion h
                  | ok v p2 =>
                    simp only [hd] at h
                    by_cases hv : v < 0
                    · rw [if_pos hv] at h
                      exact PR.noConfusion h
                    · rw [if_neg hv] at h
                      cases hm : parseManyF fuel buf p2 v.toNat with
                      | ok xs p3 =>
                        simp only [hm, PR.ok.injEq] at h
                        have hdb := getDecimal_bound hd
                        have hmb := (ih.2) v.toNat buf p2 xs p3 hm
                        omega
                      | incomplete =>
                        simp only [hm] at h
                        exact PR.noConfusion h
                      | other m =>
                        simp only [hm] at h
                        exact PR.noConfusion h
                      | panicked m =>
                        simp only [hm] at h
                        exact PR.noConfusion h
                      | nofuel =>
                        simp only [hm] at h
                        exact PR.noConfusion h
                · rw [if_neg h42] at h
                  exact PR.noConfusion h
    refine ⟨hA, ?_⟩
    intro n
    induction n with
    | zero =>
      intro buf pos xs q h
      simp only [parseManyF, PR.ok.injEq] at h
      exact ⟨by omega, Or.inr h.2.symm⟩
    | succ n ihn =>
      intro buf pos xs q h
      simp only [parseManyF] at h
      cases hp : parseF (fuel + 1) buf pos with
      | ok f p =>
        simp only [hp] at h
        cases hm : parseManyF (fuel + 1) buf p n with
        | ok xs' q' =>
          simp only [hm, PR.ok.injEq] at h
          have h1 := hA buf pos f p hp
          have h2 := ihn buf p xs' q' hm
          obtain ⟨-, hq⟩ := h
          subst hq
          rcases h2.2 with h2a | h2a
          · exact ⟨by omega, Or.inl h2a⟩
          · exact ⟨by omega, Or.inl (by omega)⟩
        | incomplete =>
          simp only [hm] at h
          exact PR.noConfusion h
        | other m =>
          simp only [hm] at h
          exact PR.noConfusion h
        | panicked m =>
          simp only [hm] at h
          exact PR.noConfusion h
        | nofuel =>
          simp only [hm] at h
          exact PR.noConfusion h
      | incomplete =>
        simp only [hp] at h
        exact PR.noConfusion h
      | other m =>
        simp only [hp] at h
        exact PR.noConfusion h
      | panicked m =>
        simp only [hp] at h
        exact PR.noConfusion h
      | nofuel =>
        simp only [hp] at h
        exact PR.noConfusion h

/-- Position bound for a successful parse. -/
theorem parseF_bound {fuel : Nat} {buf : List Nat} {pos : Nat} {f : Frame} {q : Nat}
    (h : parseF fuel buf pos = .ok f q) : pos < q ∧ q ≤ buf.length :=
  (parse_bound_all fuel).1 buf pos f q h

theorem parse_take_all : ∀ fuel : Nat,
    (∀ buf buf' pos f q q', parseF fuel buf pos = .ok f q → q ≤ q' →
      buf'.take q' = buf.take q' → q' ≤ buf'.length → parseF fuel buf' pos = .ok f q) ∧
    (∀ n buf buf' pos xs q q', parseManyF fuel buf pos n = .ok xs q → q ≤ q' →
      buf'.take q' = buf.take q' → q' ≤ buf'.length → parseManyF fuel buf' pos n = .ok xs q) := by
  intro fuel
  induction fuel with
  | zero =>
    constructor
    · intro buf buf' pos f q q' h
      simp only [parseF] at h
      exact PR.noConfusion h
    · intro n buf buf' pos xs q q' h hq ht hlen
      cases n with
      | zero =>
        simp only [parseManyF, PR.ok.injEq] at h
        simp only [parseManyF, PR.ok.injEq]
        exact h
      | succ n =>
        simp only [parseManyF, parseF] at h
        exact PR.noConfusion h
  | succ fuel ih =>
    have hA : ∀ buf buf' pos f q q', parseF (fuel + 1) buf pos = .ok f q → q ≤ q' →
        buf'.take q' = buf.take q' → q' ≤ buf'.length → parseF (fuel + 1) buf' pos = .ok f q := by
      intro buf buf' pos f q q' h hq ht hlen
      have hbnd := parseF_bound h
      simp only [parseF, getU8] at h ⊢
      cases hg : buf[pos]? with
      | none =>
        simp only [hg] at h
        exact PR.noConfusion h
      | some b =>
        have hg' : buf'[pos]? = some b := by
          rw [take_eq_imp_getElem?_eq ht (by omega)]
          exact hg
        simp only [hg] at h
        simp only [hg']
        by_cases h43 : b = 43
        · rw [if_pos h43] at h ⊢
          exact parseSimple_take_eq h hq ht hlen
        · rw [if_neg h43] at h ⊢
          by_cases h45 : b = 45
          · rw [if_pos h45] at h ⊢
            exact parseErr_take_eq h hq ht hlen
          · rw [if_neg h45] at h ⊢
            by_cases h58 : b = 58
            · rw [if_pos h58] at h ⊢
              exact parseInt_take_eq h hq ht hlen
            · rw [if_neg h58] at h ⊢
              by_cases h36 : b = 36
              · rw [if_pos h36] at h ⊢
                exact parseBulk_take_eq h hq ht hlen
              · rw [if_neg h36] at h ⊢
                by_cases h42 : b = 42
                · rw [if_pos h42] at h ⊢
                  cases hd : getDecimal buf (pos + 1) with
                  | incomplete =>
                    simp only [hd] at h
                    exact PR.noConfusion h
                  | badFormat =>
                    simp only [hd] at h
                    exact PR.noConfusion h
                  | ok v p2 =>
                    simp only [hd] at h
                    by_cases hv : v < 0
                    · rw [if_pos hv] at h
                      exact PR.noConfusion h
                    · rw [if_neg hv] at h
                      cases hm : parseManyF fuel buf p2 v.toNat with
                      | ok xs p3 =>
                        simp only [hm, PR.ok.injEq] at h
                        obtain ⟨hf, hp3⟩ := h
                        have hmb := (parse_bound_all fuel).2 v.toNat buf p2 xs p3 hm
                        have hd' : getDecimal buf' (pos + 1) = .ok v p2 :=
                          getDecimal_take_eq hd (by omega) ht hlen
                        simp only [hd']
                        rw [if_neg hv]
                        have hm' : parseManyF fuel buf' p2 v.toNat = .ok xs p3 :=
                          ih.2 v.toNat buf buf' p2 xs p3 q' hm (by omega) ht hlen
                        simp only [hm', PR.ok.injEq]
                        exact ⟨hf, hp3⟩
                      | incomplete =>
                        simp only [hm] at h
                        exact PR.noConfusion h
                      | other m =>
                        simp only [hm] at h
                        exact PR.noConfusion h
                      | panicked m =>
                        simp only [hm] at h
                        exact PR.noConfusion h
                      | nofuel =>
                        simp only [hm] at h
                        exact PR.noConfusion h
                · rw [if_neg h42] at h
                  exact PR.noConfusion h
    refine ⟨hA, ?_⟩
    intro n
    induction n with
    | zero =>
      intro buf buf' pos xs q q' h hq ht hlen
      simp only [parseManyF, PR.ok.injEq] at h
      simp only [parseManyF, PR.ok.injEq]
      exact h
    | succ n ihn =>
      intro buf buf' pos xs q q' h hq ht hlen
      simp only [parseManyF] at h ⊢
      cases hp : parseF (fuel + 1) buf pos with
      | ok f p =>
        simp only [hp] at h
        cases hm : parseManyF (fuel + 1) buf p n with
        | ok xs' q2 =>
          simp only [hm, PR.ok.injEq] at h
          obtain ⟨hxs, hq2⟩ := h
          have hmb := (parse_bound_all (fuel + 1)).2 n buf p xs' q2 hm
          have hpb := parseF_bound hp
          have hp' : parseF (fuel + 1) buf' pos = .ok f p :=
            hA buf buf' pos f p q' hp (by omega) ht hlen
          have hm' : parseManyF (fuel + 1) buf' p n = .ok xs' q2 :=
            ihn buf buf' p xs' q2 q' hm (by omega) ht hlen
          simp only [hp', hm', PR.ok.injEq]
          exact ⟨hxs, hq2⟩
        | incomplete =>
          simp only [hm] at h
          exact PR.noConfusion h
        | other m =>
          simp only [hm] at h
          exact PR.noConfusion h
        | panicked m =>
          simp only [hm] at h
          exact PR.noConfusion h
        | nofuel =>
          simp only [hm] at h
          exact PR.noConfusion h
      | incomplete =>
        simp only [hp] at h
        exact PR.noConfusion h
      | other m =>
        simp only [hp] at h
        exact PR.noConfusion h
      | panicked m =>
        simp only [hp] at h
        exact PR.noConfusion h
      | nofuel =>
        simp only [hp] at h
        exact PR.noConfusion h

/-- A successful parse depends only on the bytes before its final position:
any buffer agreeing on a prefix covering the consumed range parses the same. -/
theorem parseF_take_eq {fuel : Nat} {buf buf' : List Nat} {pos : Nat} {f : Frame} {q q' : Nat}
    (h : parseF fuel buf pos = .ok f q) (hq : q ≤ q') (ht : buf'.take q' = buf.take q')
    (hlen : q' ≤ buf'.length) : parseF fuel buf' pos = .ok f q :=
  (parse_take_all fuel).1 buf buf' pos f q q' h hq ht hlen

theorem parse_trunc_all : ∀ fuel : Nat,
    (∀ buf pos f q k, parseF fuel buf pos = .ok f q → k < q →
      parseF fuel (buf.take k) pos = .incomplete) ∧
    (∀ n buf pos xs q k, parseManyF fuel buf pos n = .ok xs q → pos ≤ k → k < q →
      parseManyF fuel (buf.take k) pos n = .incomplete) := by
  intro fuel
  induction fuel with
  | zero =>
    constructor
    · intro buf pos f q k h
      simp only [parseF] at h
      exact PR.noConfusion h
    · intro n buf pos xs q k h hpk hk
      cases n with
      | zero =>
        simp only [parseManyF, PR.ok.injEq] at h
        omega
      | succ n =>
        simp only [parseManyF, parseF] at h
        exact PR.noConfusion h
  | succ fuel ih =>
    have hA : ∀ buf pos f q k, parseF (fuel + 1) buf pos = .ok f q → k < q →
        parseF (fuel + 1) (buf.take k) pos = .incomplete := by
      intro buf pos f q k h hk
      have hbnd := parseF_bound h
      by_cases hpk : pos < k
      case neg =>
        simp only [parseF, getU8, List.getElem?_take, if_neg hpk]
      case pos =>
        simp only [parseF, getU8] at h ⊢
        cases hg : buf[pos]? with
        | none =>
          simp only [hg] at h
          exact PR.noConfusion h
        | some b =>
          have hg' : (buf.take k)[pos]? = some b := by
            rw [List.getElem?_take, if_pos hpk]
            exact hg
          simp only [hg] at h
          simp only [hg']
          by_cases h43 : b = 43
          · rw [if_pos h43] at h ⊢
            exact parseSimple_truncation h hk
          · rw [if_neg h43] at h ⊢
            by_cases h45 : b = 45
            · rw [if_pos h45] at h ⊢
              exact parseErr_truncation h hk
            · rw [if_neg h45] at h ⊢
              by_cases h58 : b = 58
              · rw [if_pos h58] at h ⊢
                exact parseInt_truncation h hk
              · rw [if_neg h58] at h ⊢
                by_cases h36 : b = 36
                · rw [if_pos h36] at h ⊢
                  exact parseBulk_truncation h hk
                · rw [if_neg h36] at h ⊢
                  by_cases h42 : b = 42
                  · rw [if_pos h42] at h ⊢
                    cases hd : getDecimal buf (pos + 1) with
                    | incomplete =>
                      simp only [hd] at h
                      exact PR.noConfusion h
                    | badFormat =>
                      simp only [hd] at h
                      exact PR.noConfusion h
                    | ok v p2 =>
                      simp only [hd] at h
                      by_cases hv : v < 0
                      · rw [if_pos hv] at h
                        exact PR.noConfusion h
                      · rw [if_neg hv] at h
                        cases hm : parseManyF fuel buf p2 v.toNat with
                        | ok xs p3 =>
                          simp only [hm, PR.ok.injEq] at h
                          obtain ⟨hf, hp3⟩ := h
                          have hdb := getDecimal_bound hd
                          have hmb := (parse_bound_all fuel).2 v.toNat buf p2 xs p3 hm
                          by_cases hkp : k < p2
                          · rw [getDecimal_truncation hd hkp]
                          · have ht' : (buf.take k).take p2 = buf.take p2 := by
                              rw [List.take_take, Nat.min_eq_left (by omega)]
                            have hlen' : p2 ≤ (buf.take k).length := by
                              rw [List.length_take]
                              omega
                            simp only [getDecimal_take_eq hd (Nat.le_refl p2) ht' hlen']
                            rw [if_neg hv]
                            have hm' : parseManyF fuel (buf.take k) p2 v.toNat = .incomplete :=
                              ih.2 v.toNat buf p2 xs p3 k hm (by omega) (by omega)
                            simp only [hm']
                        | incomplete =>
                          simp only [hm] at h
                          exact PR.noConfusion h
                        | other m =>
                          simp only [hm] at h
                          exact PR.noConfusion h
                        | panicked m =>
                          simp only [hm] at h
                          exact PR.noConfusion h
                        | nofuel =>
                          simp only [hm] at h
                          exact PR.noConfusion h
                  · rw [if_neg h42] at h
                    exact PR.noConfusion h
    refine ⟨hA, ?_⟩
    intro n
    induction n with
    | zero =>
      intro buf pos xs q k h hpk hk
      simp only [parseManyF, PR.ok.injEq] at h
      omega
    | succ n ihn =>
      intro buf pos xs q k h hpk hk
      simp only [parseManyF] at h ⊢
      cases hp : parseF (fuel + 1) buf pos with
      | ok f p =>
        simp only [hp] at h
        cases hm : parseManyF (fuel + 1) buf p n with
        | ok xs' q2 =>
          simp only [hm, PR.ok.injEq] at h
          obtain ⟨hxs, hq2⟩ := h
          have hmb := (parse_bound_all (fuel + 1)).2 n buf p xs' q2 hm
          have hpb := parseF_bound hp
          by_cases hkp : k < p
          · have hpt : parseF (fuel + 1) (buf.take k) pos = .incomplete := hA buf pos f p k hp hkp
            simp only [hpt]
          · have hp' : parseF (fuel + 1) (buf.take k) pos = .ok f p := by
              apply parseF_take_eq hp (Nat.le_refl p)
              · rw [List.take_take, Nat.min_eq_left (by omega)]
              · rw [List.length_take]
                omega
            have hm' : parseManyF (fuel + 1) (buf.take k) p n = .incomplete :=
              ihn buf p xs' q2 k hm (by omega) (by omega)
            simp only [hp', hm']
        | incomplete =>
          simp only [hm] at h
          exact PR.noConfusion h
        | other m =>
          simp only [hm] at h
          exact PR.noConfusion h
        | panicked m =>
          simp only [hm] at h
          exact PR.noConfusion h
        | nofuel =>
          simp only [hm] at h
          exact PR.noConfusion h
      | incomplete =>
        simp only [hp] at h
        exact PR.noConfusion h
      | other m =>
        simp only [hp] at h
        exact PR.noConfusion h
      | panicked m =>
        simp only [hp] at h
        exact PR.noConfusion h
      | nofuel =>
        simp only [hp] at h
        exact PR.noConfusion h

/-- Truncating a buffer strictly before a successful parse's final position
turns the parse into `Incomplete`. -/
theorem parseF_truncation {fuel : Nat} {buf : List Nat} {pos : Nat} {f : Frame} {q k : Nat}
    (h : parseF fuel buf pos = .ok f q) (hk : k < q) :
    parseF fuel (buf.take k) pos = .incomplete :=
  (parse_trunc_all fuel).1 buf pos f q k h hk

theorem parseSimple_ne_nofuel (buf : List Nat) (pos : Nat) : parseSimple buf pos ≠ .nofuel := by
  rw [parseSimple]
  split
  · simp
  · split <;> simp

theorem parseErr_ne_nofuel (buf : List Nat) (pos : Nat) : parseErr buf pos ≠ .nofuel := by
  rw [parseErr]
  split
  · simp
  · split
    · split <;> simp
    · simp

theorem parseInt_ne_nofuel (buf : List Nat) (pos : Nat) : parseInt buf pos ≠ .nofuel := by
  rw [parseInt]
  split <;> simp

theorem parseBulk_ne_nofuel (buf : List Nat) (pos : Nat) : parseBulk buf pos ≠ .nofuel := by
  rw [parseBulk]
  split
  · simp
  · split
    · split
      · simp
      · split <;> simp
    · split
      · simp
      · simp
      · split
        · simp
        · split <;> simp

theorem parse_mono_all : ∀ fuel : Nat,
    (∀ buf pos r, parseF fuel buf pos = r → r ≠ .nofuel → parseF (fuel + 1) buf pos = r) ∧
    (∀ n buf pos r, parseManyF fuel buf pos n = r → r ≠ .nofuel →
      parseManyF (fuel + 1) buf pos n = r) := by
  intro fuel
  induction fuel with
  | zero =>
    constructor
    · intro buf pos r h hr
      simp only [parseF] at h
      exact absurd h.symm hr
    · intro n buf pos r h hr
      cases n with
      | zero =>
        simp only [parseManyF] at h ⊢
        exact h
      | succ n =>
        simp only [parseManyF, parseF] at h
        exact absurd h.symm hr
  | succ fuel ih =>
    have hA : ∀ buf pos r, parseF (fuel + 1) buf pos = r → r ≠ .nofuel →
        parseF (fuel + 2) buf pos = r := by
      intro buf pos r h hr
      simp only [parseF, getU8] at h ⊢
      cases hg : buf[pos]? with
      | none =>
        simp only [hg] at h ⊢
        exact h
      | some b =>
        simp only [hg] at h ⊢
        by_cases h43 : b = 43
        · rw [if_pos h43] at h ⊢
          exact h
        · rw [if_neg h43] at h ⊢
          by_cases h45 : b = 45
          · rw [if_pos h45] at h ⊢
            exact h
          · rw [if_neg h45] at h ⊢
            by_cases h58 : b = 58
            · rw [if_pos h58] at h ⊢
              exact h
            · rw [if_neg h58] at h ⊢
              by_cases h36 : b = 36
              · rw [if_pos h36] at h ⊢
                exact h
              · rw [if_neg h36] at h ⊢
                by_cases h42 : b = 42
                · rw [if_pos h42] at h ⊢
                  cases hd : getDecimal buf (pos + 1) with
                  | incomplete =>
                    simp only [hd] at h ⊢
                    exact h
                  | badFormat =>
                    simp only [hd] at h ⊢
                    exact h
                  | ok v p2 =>
                    simp only [hd] at h ⊢
                    by_cases hv : v < 0
                    · rw [if_pos hv] at h ⊢
                      exact h
                    · rw [if_neg hv] at h ⊢
                      cases hm : parseManyF fuel buf p2 v.toNat with
                      | ok xs p3 =>
                        have hm' := ih.2 v.toNat buf p2 _ hm (by simp)
                        simp only [hm'] at *
                        simp only [hm] at h
                        exact h
                      | incomplete =>
                        have hm' := ih.2 v.toNat buf p2 _ hm (by simp)
                        simp only [hm'] at *
                        simp only [hm] at h
                        exact h
                      | other m =>
                        have hm' := ih.2 v.toNat buf p2 _ hm (by simp)
                        simp only [hm'] at *
                        simp only [hm] at h
                        exact h
                      | panicked m =>
                        have hm' := ih.2 v.toNat buf p2 _ hm (by simp)
                        simp only [hm'] at *
                        simp only [hm] at h
                        exact h
                      | nofuel =>
                        simp only [hm] at h
                        exact absurd h.symm hr
                · rw [if_neg h42] at h ⊢
                  exact h
    refine ⟨hA, ?_⟩
    intro n
    induction n with
    | zero =>
      intro buf pos r h hr
      simp only [parseManyF] at h ⊢
      exact h
    | succ n ihn =>
      intro buf pos r h hr
      simp only [parseManyF] at h ⊢
      cases hp : parseF (fuel + 1) buf pos with
      | ok f p =>
        have hp' := hA buf pos _ hp (by simp)
        simp only [hp'] at *
        simp only [hp] at h
        cases hm : parseManyF (fuel + 1) buf p n with
        | ok xs q2 =>
          have hm' := ihn buf p _ hm (by simp)
          simp only [hm'] at *
          simp only [hm] at h
          exact h
        | incomplete =>
          have hm' := ihn buf p _ hm (by simp)
          simp only [hm'] at *
          simp only [hm] at h
          exact h
        | other m =>
          have hm' := ihn buf p _ hm (by simp)
          simp only [hm'] at *
          simp only [hm] at h
          exact h
        | panicked m =>
          have hm' := ihn buf p _ hm (by simp)
          simp only [hm'] at *
          simp only [hm] at h
          exact h
        | nofuel =>
          simp only [hm] at h
          exact absurd h.symm hr
      | incomplete =>
        have hp' := hA buf pos _ hp (by simp)
        simp only [hp'] at *
        simp only [hp] at h
        exact h
      | other m =>
        have hp' := hA buf pos _ hp (by simp)
        simp only [hp'] at *
        simp only [hp] at h
        exact h
      | panicked m =>
        have hp' := hA buf pos _ hp (by simp)
        simp only [hp'] at *
        simp only [hp] at h
        exact h
      | nofuel =>
        simp only [hp] at h
        exact absurd h.symm hr

/-- Any result other than fuel exhaustion is stable under more fuel. -/
theorem parseF_mono {fuel fuel' : Nat} {buf : List Nat} {pos : Nat} {r : PR Frame}
    (h : parseF fuel buf pos = r) (hr : r ≠ .nofuel) (hle : fuel ≤ fuel') :
    parseF fuel' buf pos = r := by
  induction fuel' with
  | zero =>
    have : fuel = 0 := by omega
    subst this
    exact h
  | succ fuel' ihf =>
    by_cases he : fuel = fuel' + 1
    · subst he
      exact h
    · exact (parse_mono_all fuel').1 buf pos r (ihf (by omega)) hr

theorem parse_nofuel_all : ∀ fuel : Nat,
    (∀ buf pos, buf.length - pos < fuel → parseF fuel buf pos ≠ .nofuel) ∧
    (∀ n buf pos, buf.length - pos < fuel → parseManyF fuel buf pos n ≠ .nofuel) := by
  intro fuel
  induction fuel with
  | zero =>
    constructor
    · intro buf pos h
      omega
    · intro n buf pos h
      omega
  | succ fuel ih =>
    have hA : ∀ buf pos, buf.length - pos < fuel + 1 → parseF (fuel + 1) buf pos ≠ .nofuel := by
      intro buf pos hfuel
      cases hg : buf[pos]? with
      | none => simp only [parseF, getU8, hg]; simp
      | some b =>
        simp only [parseF, getU8, hg]
        have hpos : pos < buf.length := getElem?_some_lt hg
        by_cases h43 : b = 43
        · rw [if_pos h43]
          exact parseSimple_ne_nofuel buf (pos + 1)
        · rw [if_neg h43]
          by_cases h45 : b = 45
          · rw [if_pos h45]
            exact parseErr_ne_nofuel buf (pos + 1)
          · rw [if_neg h45]
            by_cases h58 : b = 58
            · rw [if_pos h58]
              exact parseInt_ne_nofuel buf (pos + 1)
            · rw [if_neg h58]
              by_cases h36 : b = 36
              · rw [if_pos h36]
                exact parseBulk_ne_nofuel buf (pos + 1)
              · rw [if_neg h36]
                by_cases h42 : b = 42
                · rw [if_pos h42]
                  cases hd : getDecimal buf (pos + 1) with
                  | incomplete => simp
                  | badFormat => simp
                  | ok v p2 =>
                    by_cases hv : v < 0
                    · simp [hv]
                    · have hdb := getDecimal_bound hd
                      have hm := ih.2 v.toNat buf p2 (by omega)
                      cases hmm : parseManyF fuel buf p2 v.toNat with
                      | ok xs p3 => simp [hv, hmm]
                      | incomplete => simp [hv, hmm]
                      | other m => simp [hv, hmm]
                      | panicked m => simp [hv, hmm]
                      | nofuel => exact absurd hmm hm
                · rw [if_neg h42]
                  simp
    refine ⟨hA, ?_⟩
    intro n
    induction n with
    | zero =>
      intro buf pos hfuel
      simp only [parseManyF]
      simp
    | succ n ihn =>
      intro buf pos hfuel
      simp only [parseManyF]
      cases hp : parseF (fuel + 1) buf pos with
      | ok f p =>
        have hpb := parseF_bound hp
        cases hmm : parseManyF (fuel + 1) buf p n with
        | ok xs p3 => simp [hmm]
        | incomplete => simp [hmm]
        | other m => simp [hmm]
        | panicked m => simp [hmm]
        | nofuel => exact absurd hmm (ihn buf p (by omega))
      | incomplete => simp
      | other m => simp
      | panicked m => simp
      | nofuel => exact absurd hp (hA buf pos hfuel)

/-- `decode`'s recursion bound can never be exhausted. -/
theorem parseF_no_nofuel {fuel : Nat} {buf : List Nat} {pos : Nat}
    (h : buf.length - pos < fuel) : parseF fuel buf pos ≠ .nofuel :=
  (parse_nofuel_all fuel).1 buf pos h

/-! ## Round-trip: encodings parse back -/

mutual

/-- Frames whose texts embed no `\r\n` and are valid UTF-8 (recursively);
the redirection variants are excluded (the encoder cannot emit them). -/
def framesGoodB : Frame → Bool
  | .simpleString s => crlfFree s && utf8Valid s
  | .error s => crlfFree s && utf8Valid s
  | .integer _ => true
  | .bulkString _ => true
  | .array xs => framesGoodListB xs
  | .moved _ => false
  | .ask _ => false
  | .null => true

/-- `framesGoodB` over a list of children. -/
def framesGoodListB : List Frame → Bool
  | [] => true
  | x :: xs => framesGoodB x && framesGoodListB xs

end

mutual

/-- The frame a valid encoding decodes back to: identical except that error
text recognized as a redirection comes back as a `Moved`/`Ask` frame (with
reconstructed text), recursively through arrays. -/
def decodeImage : Frame → Frame
  | .error s =>
    match string_to_redirection s with
    | .ok r => frameOfRedirection r
    | .error _ => .error s
  | .array xs => .array (decodeImageList xs)
  | .simpleString s => .simpleString s
  | .integer i => .integer i
  | .bulkString b => .bulkString b
  | .moved s => .moved s
  | .ask s => .ask s
  | .null => .null

/-- `decodeImage` over a list of children. -/
def decodeImageList : List Frame → List Frame
  | [] => []
  | x :: xs => decodeImage x :: decodeImageList xs

end

theorem intDecimal_no13 (i : Int) : ∀ b ∈ intDecimal i, b ≠ 13 := by
  intro b hb
  rw [intDecimal] at hb
  by_cases hneg : i < 0
  · rw [if_pos hneg] at hb
    rcases List.mem_cons.mp hb with hb | hb
    · omega
    · have := natDecimal_all_digits _ b hb
      simp [isDigit] at this
      omega
  · rw [if_neg hneg] at hb
    have := natDecimal_all_digits _ b hb
    simp [isDigit] at this
    omega

theorem intDecimal_crlfFree (i : Int) : crlfFree (intDecimal i) = true :=
  no13_crlfFree (intDecimal_no13 i)

theorem natDecimal_head_digit (n : Nat) :
    ∃ hd tl, natDecimal n = hd :: tl ∧ 48 ≤ hd ∧ hd ≤ 57 := by
  cases hh : natDecimal n with
  | nil => exact absurd hh (natDecimal_ne_nil n)
  | cons hd tl =>
    have := natDecimal_all_digits n hd (by rw [hh]; simp)
    simp [isDigit] at this
    exact ⟨hd, tl, rfl, this.1, this.2⟩

theorem natDecimal_val_lt_pow {n k : Nat} (h : (natDecimal n).length ≤ k) : n < 10 ^ k :=
  Nat.lt_of_lt_of_le (natDecimal_lt n) (Nat.pow_le_pow_right (by omega) h)

/-- The round-trip property of one frame. -/
def RTStmt (f : Frame) : Prop :=
  ∀ e buf pos fuel, framesGoodB f = true → writeValue f = some e →
    SegAt buf pos e → pos + e.length ≤ buf.length → e.length + 1 ≤ fuel →
    parseF fuel buf pos = .ok (decodeImage f) (pos + e.length)

theorem write_decimal_eq_some {i : Int} {d : List Nat} (h : write_decimal i = some d) :
    d = intDecimal i ++ [13, 10] ∧ (intDecimal i).length ≤ 12 := by
  rw [write_decimal] at h
  by_cases hlen : (intDecimal i).length ≤ 12
  · rw [if_pos hlen] at h
    injection h with h
    exact ⟨h.symm, hlen⟩
  · rw [if_neg hlen] at h
    exact Option.noConfusion h

theorem intDecimal_len_bound {i : Int} (h : (intDecimal i).length ≤ 12) :
    -(2 ^ 63) ≤ i ∧ i ≤ 2 ^ 63 - 1 := by
  rw [intDecimal] at h
  by_cases hneg : i < 0
  · rw [if_pos hneg] at h
    simp only [List.length_cons] at h
    have hv := natDecimal_val_lt_pow (n := (-i).toNat) (k := 11) (by omega)
    omega
  · rw [if_neg hneg] at h
    have hv := natDecimal_val_lt_pow (n := i.toNat) (k := 12) (by omega)
    omega

theorem getDecimal_of_seg {buf : List Nat} {pos : Nat} {i : Int}
    (hseg : SegAt buf pos (intDecimal i ++ [13, 10]))
    (hlo : -(2 ^ 63) ≤ i) (hhi : i ≤ 2 ^ 63 - 1) :
    getDecimal buf pos = .ok i (pos + (intDecimal i).length + 2) := by
  rw [getDecimal]
  simp only [getLine_of_seg hseg (intDecimal_crlfFree i), atoiInt_intDecimal hlo hhi]

theorem rt_simpleString (s : List Nat) : RTStmt (.simpleString s) := by
  intro e buf pos fuel hgood hw hseg hle hfuel
  rw [writeValue] at hw
  injection hw with hw
  subst hw
  rw [framesGoodB, Bool.and_eq_true] at hgood
  obtain ⟨hfree, hutf⟩ := hgood
  obtain ⟨h43, hseg'⟩ := segAt_cons.mp hseg
  cases fuel with
  | zero => exact absurd hfuel (by omega)
  | succ f =>
    simp only [parseF, getU8, h43, if_true]
    rw [parseSimple]
    simp only [getLine_of_seg hseg' hfree]
    rw [if_pos hutf]
    simp only [decodeImage, PR.ok.injEq, List.length_cons, List.length_append,
      List.length_nil, true_and]
    omega

theorem rt_error (s : List Nat) : RTStmt (.error s) := by
  intro e buf pos fuel hgood hw hseg hle hfuel
  rw [writeValue] at hw
  injection hw with hw
  subst hw
  rw [framesGoodB, Bool.and_eq_true] at hgood
  obtain ⟨hfree, hutf⟩ := hgood
  obtain ⟨h45, hseg'⟩ := segAt_cons.mp hseg
  cases fuel with
  | zero => exact absurd hfuel (by omega)
  | succ f =>
    simp only [parseF, getU8, h45, if_true]
    rw [if_neg (by decide)]
    rw [parseErr]
    simp only [getLine_of_seg hseg' hfree]
    rw [if_pos hutf]
    cases hr : string_to_redirection s with
    | ok r =>
      simp only [decodeImage, hr, PR.ok.injEq, List.length_cons, List.length_append,
        List.length_nil, true_and]
      omega
    | error m =>
      simp only [decodeImage, hr, PR.ok.injEq, List.length_cons, List.length_append,
        List.length_nil, true_and]
      omega

theorem rt_integer (i : Int) : RTStmt (.integer i) := by
  intro e buf pos fuel hgood hw hseg hle hfuel
  rw [writeValue] at hw
  cases hd : write_decimal i with
  | none =>
    simp only [hd] at hw
    exact Option.noConfusion hw
  | some d =>
    simp only [hd] at hw
    injection hw with hw
    subst hw
    obtain ⟨hde, hdl⟩ := write_decimal_eq_some hd
    subst hde
    obtain ⟨hlo, hhi⟩ := intDecimal_len_bound hdl
    obtain ⟨h58, hseg'⟩ := segAt_cons.mp hseg
    cases fuel with
    | zero => exact absurd hfuel (by omega)
    | succ f =>
      simp only [parseF, getU8, h58, if_true]
      rw [if_neg (by decide), if_neg (by decide)]
      rw [parseInt]
      simp only [getDecimal_of_seg hseg' hlo hhi]
      simp only [decodeImage, PR.ok.injEq, List.length_cons, List.length_append,
        List.length_nil, true_and]
      omega

theorem rt_null : RTStmt .null := by
  intro e buf pos fuel hgood hw hseg hle hfuel
  rw [writeValue] at hw
  injection hw with hw
  subst hw
  have hsv : strBytes "$-1\r\n" = [36, 45, 49, 13, 10] := rfl
  rw [hsv] at hseg hle hfuel ⊢
  obtain ⟨h36, hseg1⟩ := segAt_cons.mp hseg
  have h45 : buf[pos + 1]? = some 45 := (segAt_cons.mp hseg1).1
  have hl := getLine_of_seg (s := [45, 49]) (by simpa using hseg1) (by decide)
  cases fuel with
  | zero => exact absurd hfuel (by omega)
  | succ f =>
    simp only [parseF, getU8, h36, if_true]
    rw [if_neg (by decide), if_neg (by decide), if_neg (by decide)]
    rw [parseBulk, peekU8]
    simp only [h45, if_true, hl]
    simp only [decodeImage, PR.ok.injEq, List.length_cons, List.length_nil, true_and]

theorem rt_bulkString (b : List Nat) : RTStmt (.bulkString b) := by
  intro e buf pos fuel hgood hw hseg hle hfuel
  rw [writeValue] at hw
  cases hd : write_decimal (b.length : Int) with
  | none =>
    simp only [hd] at hw
    exact Option.noConfusion hw
  | some d =>
    simp only [hd] at hw
    injection hw with hw
    subst hw
    obtain ⟨hde, hdl⟩ := write_decimal_eq_some hd
    obtain ⟨hlo, hhi⟩ := intDecimal_len_bound hdl
    rw [intDecimal_nonneg] at hde
    subst hde
    obtain ⟨h36, hseg1⟩ := segAt_cons.mp hseg
    rw [List.append_assoc] at hseg1
    obtain ⟨hsegd, hsegb⟩ := segAt_append.mp hseg1
    have hsegd' : SegAt buf (pos + 1) (intDecimal (b.length : Int) ++ [13, 10]) := by
      rw [intDecimal_nonneg]
      exact hsegd
    obtain ⟨hd0, tl, hnd, h48, h57⟩ := natDecimal_head_digit b.length
    have hpk : buf[pos + 1]? = some hd0 := by
      have h1 := (segAt_append.mp hsegd).1
      rw [hnd] at h1
      exact (segAt_cons.mp h1).1
    have hpeq : pos + 1 + (natDecimal b.length ++ [13, 10]).length
        = pos + 1 + (natDecimal b.length).length + 2 := by
      simp only [List.length_append, List.length_cons, List.length_nil]
      omega
    have hsb : SegAt buf (pos + 1 + (natDecimal b.length).length + 2) b := by
      have h1 := (segAt_append.mp hsegb).1
      rw [hpeq] at h1
      exact h1
    have htn : ((b.length : Int)).toNat = b.length := by omega
    cases fuel with
    | zero => exact absurd hfuel (by omega)
    | succ f =>
      simp only [parseF, getU8, h36, if_true]
      rw [if_neg (by decide), if_neg (by decide), if_neg (by decide)]
      rw [parseBulk, peekU8]
      simp only [hpk]
      rw [if_neg (by omega)]
      simp only [getDecimal_of_seg hsegd' hlo hhi]
      rw [if_neg (by omega)]
      rw [intDecimal_nonneg, htn]
      simp only [List.length_cons, List.length_append, List.length_nil] at hle
      rw [if_neg (by omega)]
      rw [hsb.subList_eq]
      simp only [decodeImage, PR.ok.injEq, List.length_cons, List.length_append,
        List.length_nil, true_and]
      omega

theorem writeList_parse (xs : List Frame) (IH : ∀ x ∈ xs, RTStmt x) :
    ∀ rest buf pos fuel, framesGoodListB xs = true → writeList xs = some rest →
      SegAt buf pos rest → pos + rest.length ≤ buf.length → rest.length + 1 ≤ fuel →
      parseManyF fuel buf pos xs.length = .ok (decodeImageList xs) (pos + rest.length) := by
  induction xs with
  | nil =>
    intro rest buf pos fuel hgood hw hseg hle hfuel
    rw [writeList] at hw
    injection hw with hw
    subst hw
    simp [parseManyF, decodeImageList]
  | cons x xs ih =>
    intro rest buf pos fuel hgood hw hseg hle hfuel
    rw [writeList] at hw
    cases hx : writeValue x with
    | none =>
      simp only [hx] at hw
      exact Option.noConfusion hw
    | some ex =>
      cases hxs : writeList xs with
      | none =>
        simp only [hx, hxs] at hw
        exact Option.noConfusion hw
      | some r =>
        simp only [hx, hxs] at hw
        injection hw with hw
        subst hw
        rw [framesGoodListB, Bool.and_eq_true] at hgood
        obtain ⟨hg1, hg2⟩ := hgood
        obtain ⟨hs1, hs2⟩ := segAt_append.mp hseg
        simp only [List.length_append] at hle hfuel
        have h1 := IH x (by simp) ex buf pos fuel hg1 hx hs1 (by omega) (by omega)
        have h2 := ih (fun y hy => IH y (by simp [hy])) r buf (pos + ex.length) fuel hg2
          hxs hs2 (by omega) (by omega)
        simp only [List.length_cons]
        rw [parseManyF]
        simp only [h1, h2]
        simp only [decodeImageList, PR.ok.injEq, List.length_append, true_and]
        omega

theorem rt_array (xs : List Frame) (IH : ∀ x ∈ xs, RTStmt x) : RTStmt (.array xs) := by
  intro e buf pos fuel hgood hw hseg hle hfuel
  rw [writeValue] at hw
  cases hd : write_decimal (xs.length : Int) with
  | none =>
    simp only [hd] at hw
    exact Option.noConfusion hw
  | some d =>
    cases hr : writeList xs with
    | none =>
      simp only [hd, hr] at hw
      exact Option.noConfusion hw
    | some rest =>
      simp only [hd, hr] at hw
      injection hw with hw
      subst hw
      rw [framesGoodB] at hgood
      obtain ⟨hde, hdl⟩ := write_decimal_eq_some hd
      obtain ⟨hlo, hhi⟩ := intDecimal_len_bound hdl
      rw [intDecimal_nonneg] at hde
      subst hde
      obtain ⟨h42, hseg1⟩ := segAt_cons.mp hseg
      obtain ⟨hsegd, hsegr⟩ := segAt_append.mp hseg1
      have hsegd' : SegAt buf (pos + 1) (intDecimal (xs.length : Int) ++ [13, 10]) := by
        rw [intDecimal_nonneg]
        exact hsegd
      have hpeq : pos + 1 + (natDecimal xs.length ++ [13, 10]).length
          = pos + 1 + (natDecimal xs.length).length + 2 := by
        simp only [List.length_append, List.length_cons, List.length_nil]
        omega
      have hsegr' : SegAt buf (pos + 1 + (natDecimal xs.length).length + 2) rest := by
        rw [hpeq] at hsegr
        exact hsegr
      have htn : ((xs.length : Int)).toNat = xs.length := by omega
      cases fuel with
      | zero => exact absurd hfuel (by omega)
      | succ f =>
        simp only [List.length_cons, List.length_append, List.length_nil] at hle hfuel
        have hml := writeList_parse xs IH rest buf
          (pos + 1 + (natDecimal xs.length).length + 2) f hgood hr hsegr' (by omega)
          (by omega)
        simp only [parseF, getU8, h42, if_true]
        rw [if_neg (by decide), if_neg (by decide), if_neg (by decide),
          if_neg (by decide)]
        simp only [getDecimal_of_seg hsegd' hlo hhi]
        rw [if_neg (by omega)]
        rw [intDecimal_nonneg, htn]
        simp only [hml]
        simp only [decodeImage, PR.ok.injEq, List.length_cons, List.length_append,
          List.length_nil, true_and]
        omega

mutual

theorem writeValue_parse : ∀ f : Frame, RTStmt f
  | .simpleString s => rt_simpleString s
  | .error s => rt_error s
  | .integer i => rt_integer i
  | .bulkString b => rt_bulkString b
  | .null => rt_null
  | .moved s => by
    intro e buf pos fuel hgood hw
    rw [framesGoodB] at hgood
    exact absurd hgood (by simp)
  | .ask s => by
    intro e buf pos fuel hgood hw
    rw [framesGoodB] at hgood
    exact absurd hgood (by simp)
  | .array xs => rt_array xs (writeValue_parse_list xs)

theorem writeValue_parse_list : ∀ xs : List Frame, ∀ x ∈ xs, RTStmt x
  | [] => by simp
  | y :: ys => by
    intro x hx
    rcases List.mem_cons.mp hx with h | h
    · exact h ▸ writeValue_parse y
    · exact writeValue_parse_list ys x h

end

/-! ## ASCII keys: the character/byte index mixes of redis_keyslot are
harmless when every character is a single UTF-8 byte -/

theorem char_beq_toNat (c d : Char) : (c == d) = (c.toNat == d.toNat) := by
  by_cases h : c = d
  · subst h
    simp
  · have hn : c.toNat ≠ d.toNat := fun he => h (Char.eq_of_val_eq (UInt32.ext he))
    simp [h, hn]

theorem strBytesOf_ascii {cs : List Char} (h : ∀ c ∈ cs, c.toNat < 128) :
    strBytesOf cs = cs.map Char.toNat := by
  induction cs with
  | nil => rfl
  | cons c l ih =>
    have hc : charBytes c = [c.toNat] := by
      simp only [charBytes]
      rw [if_pos (h c (by simp))]
    show charBytes c ++ strBytesOf l = c.toNat :: List.map Char.toNat l
    rw [hc, ih (fun x hx => h x (by simp [hx]))]
    rfl

theorem firstIdx_map {α β : Type} (f : α → β) (p : β → Bool) (l : List α) :
    firstIdx p (l.map f) = firstIdx (fun a => p (f a)) l := by
  induction l with
  | nil => rfl
  | cons a l ih => simp only [List.map_cons, firstIdx, ih]

theorem firstIdx_congr {α : Type} {p q : α → Bool} {l : List α}
    (h : ∀ a ∈ l, p a = q a) : firstIdx p l = firstIdx q l := by
  induction l with
  | nil => rfl
  | cons a l ih =>
    rw [firstIdx, firstIdx, h a (by simp), ih (fun x hx => h x (by simp [hx]))]

theorem firstIdx_some_lt {α : Type} {p : α → Bool} {l : List α} {i : Nat}
    (h : firstIdx p l = some i) : i < l.length := by
  induction l generalizing i with
  | nil => exact absurd h (by simp [firstIdx])
  | cons a l ih =>
    rw [firstIdx] at h
    by_cases hp : p a
    · rw [if_pos hp] at h
      injection h with h
      simp [← h]
    · rw [if_neg hp] at h
      cases hf : firstIdx p l with
      | none =>
        rw [hf] at h
        exact absurd h (by simp)
      | some j =>
        rw [hf] at h
        simp only [Option.map] at h
        injection h with h
        have := ih hf
        simp only [List.length_cons]
        omega

theorem byteDropChars_ascii {cs : List Char} (h : ∀ c ∈ cs, c.toNat < 128) :
    ∀ n, n ≤ cs.length → byteDropChars cs n = some (cs.drop n) := by
  induction cs with
  | nil =>
    intro n hn
    have h0 : n = 0 := by simpa using hn
    subst h0
    rfl
  | cons c l ih =>
    intro n hn
    cases n with
    | zero => rfl
    | succ m =>
      have hc : charSize c = 1 := by
        rw [charSize, if_pos (h c (by simp))]
      rw [byteDropChars, hc, if_pos (by omega)]
      rw [show m + 1 - 1 = m from rfl]
      rw [ih (fun x hx => h x (by simp [hx])) m
        (by simp only [List.length_cons] at hn; omega)]
      rfl

theorem isBoundary_ascii {cs : List Char} (h : ∀ c ∈ cs, c.toNat < 128) {n : Nat}
    (hn : n ≤ cs.length) : isBoundary cs n = true := by
  rw [isBoundary, byteDropChars_ascii h n hn]
  rfl

/-- C6 (amended): for a key whose characters are all single-byte (ASCII), the
character indices `redis_keyslot` mixes with byte offsets coincide with byte
indices, and the function returns exactly the slot the specification's
tie-break describes over the key's bytes: first `\x7b`; whole key if absent,
last, unmatched, or the tag empty; otherwise the tag between the braces;
CRC-16/XMODEM mod 16384 of the chosen range.  (On multi-byte keys the two
disagree or the byte slicing panics; see the counterexample.) -/
theorem C6_keyslot_ascii (cs : List Char) (hA : ∀ c ∈ cs, c.toNat < 128) :
    redis_keyslot cs = some (spec_keyslot (strBytesOf cs)) := by
  have hb : strBytesOf cs = cs.map Char.toNat := strBytesOf_ascii hA
  have hlen : (strBytesOf cs).length = cs.length := by rw [hb, List.length_map]
  have h123 : firstIdx (fun c => c == '{') cs
      = firstIdx (fun b => b == 123) (strBytesOf cs) := by
    rw [hb, firstIdx_map]
    apply firstIdx_congr
    intro a _
    rw [char_beq_toNat a '{']
    rfl
  rw [redis_keyslot, spec_keyslot, ← h123]
  cases hin : firstIdx (fun c => c == '{') cs with
  | none => rfl
  | some i =>
    dsimp only
    have hi : i < cs.length := firstIdx_some_lt hin
    by_cases hlast : i = (strBytesOf cs).length - 1
    · rw [if_pos hlast, if_pos hlast]
    · rw [if_neg hlast, if_neg hlast]
      have hdrop : byteDropChars cs (i + 1) = some (cs.drop (i + 1)) :=
        byteDropChars_ascii hA (i + 1) (by omega)
      simp only [hdrop]
      have h125 : firstIdx (fun c => c == '}') (cs.drop (i + 1))
          = firstIdx (fun b => b == 125) ((strBytesOf cs).drop (i + 1)) := by
        rw [hb, ← List.map_drop, firstIdx_map]
        apply firstIdx_congr
        intro a _
        rw [char_beq_toNat a '}']
        rfl
      rw [← h125]
      cases hj : firstIdx (fun c => c == '}') (cs.drop (i + 1)) with
      | none => rfl
      | some j =>
        dsimp only
        have hj' : j < (cs.drop (i + 1)).length := firstIdx_some_lt hj
        rw [List.length_drop] at hj'
        by_cases hj0 : j = 0
        · rw [if_pos (Or.inr hj0), if_pos hj0]
        · have hcond : ¬(i + j = (strBytesOf cs).length ∨ j = 0) := by
            rw [hlen]
            rintro (hc | hc)
            · omega
            · exact hj0 hc
          rw [if_neg hcond, if_neg hj0]
          have hsl : byteSliceBytes cs (i + 1) (i + j + 1)
              = some (subList (strBytesOf cs) (i + 1) (i + j + 1)) := by
            rw [byteSliceBytes, if_pos ?_]
            refine ⟨by omega, isBoundary_ascii hA (by omega), isBoundary_ascii hA (by omega)⟩
          simp only [hsl]
          rw [show i + j + 1 = i + 1 + j from by omega]

/-! ## A structurally recursive twin of parseF, for evaluating concrete
buffers (parseF itself recurses on a lexicographic measure and so does not
reduce definitionally) -/

/-- The `*` arm's loop, abstracted over the parser used for each element. -/
def parseGo (pf : List Nat → Nat → PR Frame) (buf : List Nat) : Nat → Nat → PR (List Frame)
  | pos, 0 => .ok [] pos
  | pos, n + 1 =>
    match pf buf pos with
    | .ok f p =>
      match parseGo pf buf p n with
      | .ok xs q => .ok (f :: xs) q
      | .incomplete => .incomplete
      | .other m => .other m
      | .panicked m => .panicked m
      | .nofuel => .nofuel
    | .incomplete => .incomplete
    | .other m => .other m
    | .panicked m => .panicked m
    | .nofuel => .nofuel

/-- `parseF`, recursing structurally on the fuel alone. -/
def parseFE : Nat → List Nat → Nat → PR Frame
  | 0, _, _ => .nofuel
  | fuel + 1, buf, pos =>
    match getU8 buf pos with
    | none => .incomplete
    | some (b, p1) =>
      if b = 43 then parseSimple buf p1
      else if b = 45 then parseErr buf p1
      else if b = 58 then parseInt buf p1
      else if b = 36 then parseBulk buf p1
      else if b = 42 then
        match getDecimal buf p1 with
        | .incomplete => .incomplete
        | .badFormat => .other protoErr
        | .ok v p2 =>
          if v < 0 then .other protoErr
          else
            match parseGo (parseFE fuel) buf p2 v.toNat with
            | .ok xs p3 => .ok (.array xs) p3
            | .incomplete => .incomplete
            | .other m => .other m
            | .panicked m => .panicked m
            | .nofuel => .nofuel
      else .panicked "not implemented"

theorem parseFE_eq : ∀ fuel buf pos, parseFE fuel buf pos = parseF fuel buf pos := by
  intro fuel
  induction fuel with
  | zero =>
    intro buf pos
    rw [parseFE, parseF]
  | succ f ih =>
    have hgo : ∀ n buf pos, parseGo (parseFE f) buf pos n = parseManyF f buf pos n := by
      intro n
      induction n with
      | zero =>
        intro buf pos
        rw [parseGo, parseManyF]
      | succ m ihm =>
        intro buf pos
        rw [parseGo, parseManyF, ih]
        cases parseF f buf pos with
        | ok fr p =>
          dsimp only
          rw [ihm]
        | incomplete => rfl
        | other m2 => rfl
        | panicked m2 => rfl
        | nofuel => rfl
    intro buf pos
    rw [parseFE, parseF]
    cases getU8 buf pos with
    | none => rfl
    | some bp =>
      obtain ⟨b, p1⟩ := bp
      dsimp only
      by_cases h1 : b = 43
      · rw [if_pos h1, if_pos h1]
      · rw [if_neg h1, if_neg h1]
        by_cases h2 : b = 45
        · rw [if_pos h2, if_pos h2]
        · rw [if_neg h2, if_neg h2]
          by_cases h3 : b = 58
          · rw [if_pos h3, if_pos h3]
          · rw [if_neg h3, if_neg h3]
            by_cases h4 : b = 36
            · rw [if_pos h4, if_pos h4]
            · rw [if_neg h4, if_neg h4]
              by_cases h5 : b = 42
              · rw [if_pos h5, if_pos h5]
                cases getDecimal buf p1 with
                | ok v p2 =>
                  dsimp only
                  by_cases hv : v < 0
                  · rw [if_pos hv, if_pos hv]
                  · rw [if_neg hv, if_neg hv, hgo]
                | incomplete => rfl
                | badFormat => rfl
              · rw [if_neg h5, if_neg h5]

/-- `decode` over the structural evaluator. -/
def decodeE (buf : List Nat) : DecodeResult :=
  match parseFE (buf.length + 1) buf 0 with
  | .ok f q => .ok (some f) q
  | .incomplete => .ok none 0
  | .other m => .error m
  | .panicked m => .panicked m
  | .nofuel => .nofuel

theorem decode_eq_decodeE (buf : List Nat) : decode buf = decodeE buf := by
  rw [decode, decodeE, parseFE_eq]

/-! ## The ten claims -/

/-- The text a `Moved`/`Ask` frame stores. -/
def storedText : Frame → Option (List Nat)
  | .moved s => some s
  | .ask s => some s
  | _ => none

theorem natDecimal_no_32 (n : Nat) : 32 ∉ natDecimal n := by
  intro hm
  have := natDecimal_all_digits n 32 hm
  simp [isDigit] at this

/-- C1 (amended): decoding a successful encoding returns the encoded frame
and its full byte length, provided the frame's textual content is CRLF-free
and valid UTF-8 (recursively through arrays: `framesGoodB`) and the frame is
its own decode image (`decodeImage f = f`, i.e. no error text that reads as a
redirection).  `encode f = some e` already excludes `Moved`/`Ask` (the
encoder destructures fields their `Frame` variants do not have) and integers
whose rendering overflows the 12-byte decimal buffer. -/
theorem C1_roundtrip (f : Frame) (e : List Nat) (hgood : framesGoodB f = true)
    (hself : decodeImage f = f) (henc : encode f = some e) :
    decode e = .ok (some f) e.length := by
  have h := writeValue_parse f e e 0 (e.length + 1) hgood henc (segAt_refl e)
    (by omega) (by omega)
  rw [Nat.zero_add] at h
  rw [decode]
  simp only [h, hself]

theorem C1_roundtrip_witness :
    decode [43, 104, 105, 13, 10] = .ok (some (.simpleString [104, 105])) 5 := by
  have h := C1_roundtrip (.simpleString [104, 105]) [43, 104, 105, 13, 10]
    (by decide) rfl rfl
  simpa using h

/-- C1 counterexample: the simple-string frame with text `\r\n` encodes
successfully, but decoding the encoding returns the empty simple string after
three bytes, not the original frame after five. -/
theorem C1_roundtrip_counterexample :
    encode (.simpleString [13, 10]) = some [43, 13, 10, 13, 10] ∧
    decode [43, 13, 10, 13, 10] = .ok (some (.simpleString [])) 3 :=
  ⟨rfl, (decode_eq_decodeE _).trans rfl⟩

/-- C2: a buffer whose first byte is none of `+ - : $ *` drives `Frame::parse`
into its wildcard arm, which is `unimplemented!()` — a panic, not the hard
`Other` error the specification promises. -/
theorem C2_junk_panics (buf : List Nat) (b : Nat) (hb : buf[0]? = some b)
    (h1 : b ≠ 43) (h2 : b ≠ 45) (h3 : b ≠ 58) (h4 : b ≠ 36) (h5 : b ≠ 42) :
    decode buf = .panicked "not implemented" := by
  rw [decode]
  simp only [parseF, getU8, hb]
  rw [if_neg h1, if_neg h2, if_neg h3, if_neg h4, if_neg h5]

theorem C2_junk_panics_witness :
    decode (strBytes "foobarbazwibblewobble") = .panicked "not implemented" :=
  C2_junk_panics (strBytes "foobarbazwibblewobble") 102 rfl (by decide) (by decide)
    (by decide) (by decide) (by decide)

/-- C3 (amended): truncating a valid encoding of a CRLF-free, UTF-8-valid
frame strictly before its end decodes as `Ok((None, 0))`.  Without the
CRLF-free restriction the property fails: an embedded `\r\n` makes a proper
prefix decode to a complete (different) frame — see the counterexample. -/
theorem C3_truncation (f : Frame) (e : List Nat) (k : Nat) (hgood : framesGoodB f = true)
    (henc : encode f = some e) (hk : k < e.length) :
    decode (e.take k) = .ok none 0 := by
  have h := writeValue_parse f e e 0 (e.length + 1) hgood henc (segAt_refl e)
    (by omega) (by omega)
  have htr := parseF_truncation h (show k < 0 + e.length by omega)
  have hlen : (e.take k).length = k := by
    rw [List.length_take]
    omega
  have hnn : parseF (k + 1) (e.take k) 0 ≠ .nofuel :=
    parseF_no_nofuel (by rw [hlen]; omega)
  have hm := parseF_mono (rfl : parseF (k + 1) (e.take k) 0 = parseF (k + 1) (e.take k) 0)
    hnn (show k + 1 ≤ e.length + 1 by omega)
  have hki : parseF (k + 1) (e.take k) 0 = .incomplete := hm.symm.trans htr
  rw [decode, hlen]
  simp only [hki]

theorem C3_truncation_witness : decode [43, 104, 105] = .ok none 0 := by
  have h := C3_truncation (.simpleString [104, 105]) [43, 104, 105, 13, 10] 3
    (by decide) rfl (by decide)
  have ht : ([43, 104, 105, 13, 10] : List Nat).take 3 = [43, 104, 105] := rfl
  rw [ht] at h
  exact h

/-- C3 counterexample: the encoding of the simple string `a\r\nb` truncated
after four of its seven bytes decodes to a complete frame (`a`), not to
`(None, 0)`. -/
theorem C3_truncation_counterexample :
    encode (.simpleString [97, 13, 10, 98]) = some [43, 97, 13, 10, 98, 13, 10] ∧
    decode [43, 97, 13, 10] = .ok (some (.simpleString [97])) 4 :=
  ⟨rfl, (decode_eq_decodeE _).trans rfl⟩

/-- C4: the byte sequences the encoder's `Moved` and `Ask` arms append are
identical — the `Ask` arm also formats `"MOVED {} {}:{}"`, so every encoded
redirection starts with `-MOVED ` regardless of its kind. -/
theorem C4_ask_encodes_moved (slot : Nat) (host : List Nat) (port : Nat) :
    write_value_ask slot host port = write_value_moved slot host port ∧
    (write_value_ask slot host port).take 7 = strBytes "-MOVED " :=
  ⟨rfl, rfl⟩

/-- C5 (amended): appending arbitrary bytes after a valid encoding of a
CRLF-free, UTF-8-valid frame does not change the decode result (frame and
consumed count).  Without the CRLF-free restriction the property fails: a
length-prefixed lookahead inside injected text can cross into the padding —
see the counterexample. -/
theorem C5_padding (f : Frame) (e s : List Nat) (hgood : framesGoodB f = true)
    (henc : encode f = some e) : decode (e ++ s) = decode e := by
  have h1 := writeValue_parse f e e 0 (e.length + 1) hgood henc (segAt_refl e)
    (by omega) (by omega)
  have h2 := writeValue_parse f e (e ++ s) 0 ((e ++ s).length + 1) hgood henc
    (segAt_append_right (segAt_refl e) (by omega))
    (by rw [List.length_append]; omega) (by rw [List.length_append]; omega)
  rw [decode, decode]
  simp only [h1, h2]

theorem C5_padding_witness :
    decode ([43, 104, 105, 13, 10] ++ strBytes "FOOBARBAZ")
      = decode [43, 104, 105, 13, 10] :=
  C5_padding (.simpleString [104, 105]) [43, 104, 105, 13, 10] (strBytes "FOOBARBAZ")
    (by decide) rfl

/-- C5 counterexample: the two-element array `[simple "a\r\n$9", integer 5]`
encodes to sixteen bytes that decode as incomplete (`(None, 0)`), while the
same bytes followed by seven padding bytes decode to a complete two-element
array consuming 23 bytes — the padding changes both the frame and the
count. -/
theorem C5_padding_counterexample :
    encode (.array [.simpleString [97, 13, 10, 36, 57], .integer 5])
      = some [42, 50, 13, 10, 43, 97, 13, 10, 36, 57, 13, 10, 58, 53, 13, 10] ∧
    decode [42, 50, 13, 10, 43, 97, 13, 10, 36, 57, 13, 10, 58, 53, 13, 10]
      = .ok none 0 ∧
    decode ([42, 50, 13, 10, 43, 97, 13, 10, 36, 57, 13, 10, 58, 53, 13, 10]
        ++ [48, 49, 50, 51, 52, 53, 54])
      = .ok (some (.array [.simpleString [97],
          .bulkString [58, 53, 13, 10, 48, 49, 50, 51, 52]])) 23 :=
  ⟨rfl, (decode_eq_decodeE _).trans rfl, (decode_eq_decodeE _).trans rfl⟩

theorem C6_keyslot_ascii_witness :
    redis_keyslot (toChars "123456789") = some 12739 ∧
    redis_keyslot (toChars "foo\x7b123456789\x7dbar") = some 12739 ∧
    redis_keyslot (toChars "foo\x7b123456789") = some 10378 :=
  ⟨(C6_keyslot_ascii (toChars "123456789") (by decide)).trans (by decide),
   (C6_keyslot_ascii (toChars "foo\x7b123456789\x7dbar") (by decide)).trans (by decide),
   (C6_keyslot_ascii (toChars "foo\x7b123456789") (by decide)).trans (by decide)⟩

/-- C6 counterexample: on the key `é\x7ba\x7db` the hash tag between the braces is
`a` (the specification's byte-level rule hashes it to slot 15495), but the
code's character index for `\x7b` used as a byte offset makes it hash the bytes
`\x7ba` instead, giving slot 10276; on the key `\x7bé\x7dx` the byte range
`key[i+1..i+j+1]` falls inside the two-byte `é` and the slicing panics
(modelled as `none`). -/
theorem C6_keyslot_counterexample :
    redis_keyslot (toChars "é\x7ba\x7db") = some 10276 ∧
    spec_keyslot (strBytesOf (toChars "é\x7ba\x7db")) = 15495 ∧
    redis_keyslot (toChars "\x7bé\x7dx") = none :=
  ⟨by decide, by decide, by decide⟩

/-- C7 (amended): a redirection line `<KIND> <slot> <host>:<port>` parses
successfully when the third token contains exactly one colon (no colon in the
host): `string_to_redirection` splits the address on `:` and rejects anything
but exactly two parts, so a third token with more than one colon is an
error, not a split on the final colon — see the counterexample. -/
theorem C7_redirection_parse (isMoved : Bool) (s h p : List Nat) (sv pv : Nat)
    (hs : parseU16 s = some sv) (hp : parseU16 p = some pv)
    (hh32 : 32 ∉ h) (hh58 : 58 ∉ h) :
    string_to_redirection (kindTag isMoved ++ (32 :: (s ++ (32 :: (h ++ (58 :: p)))))) =
      .ok (mkRedirection isMoved sv h pv) :=
  string_to_redirection_ok hs hp hh32 hh58

theorem C7_redirection_parse_witness :
    string_to_redirection (strBytes "MOVED 3999 127.0.0.1:6381")
      = .ok (mkRedirection true 3999 (strBytes "127.0.0.1") 6381) := by
  have h := C7_redirection_parse true (strBytes "3999") (strBytes "127.0.0.1")
    (strBytes "6381") 3999 6381 (by decide) (by decide) (by decide) (by decide)
  have he : kindTag true ++ (32 :: (strBytes "3999" ++ (32 :: (strBytes "127.0.0.1"
      ++ (58 :: strBytes "6381"))))) = strBytes "MOVED 3999 127.0.0.1:6381" := rfl
  rw [he] at h
  exact h

/-- C7 counterexample: a third token with two colons is rejected with the
address error instead of splitting on its final colon. -/
theorem C7_redirection_counterexample :
    string_to_redirection (strBytes "MOVED 1 a:b:1")
      = .error "Invalid redirection address." := rfl

/-- C8 (amended): whenever the decimal rendering of `i` fits the encoder's
12-byte buffer, encoding `Frame::Integer(i)` succeeds and appends exactly
`integer_encode_len i` bytes.  For renderings of 13 or more characters the
claimed equality is vacuous the wrong way: `integer_encode_len` still returns
the arithmetic count but the encoder fails outright — see the
counterexample. -/
theorem C8_integer_encode_len (i : Int) (hlen : (intDecimal i).length ≤ 12) :
    ∃ e, encode (.integer i) = some e ∧ e.length = integer_encode_len i := by
  have hwd : write_decimal i = some (intDecimal i ++ [13, 10]) := by
    rw [write_decimal, if_pos hlen]
  refine ⟨58 :: (intDecimal i ++ [13, 10]), ?_, ?_⟩
  · rw [encode, writeValue]
    simp only [hwd]
  · simp only [List.length_cons, List.length_append, List.length_nil]
    rw [integer_encode_len]
    by_cases hneg : i < 0
    · rw [if_pos hneg, if_pos hneg]
      have hne : (-i).toNat ≠ 0 := by omega
      rw [digits_in_number, if_neg hne]
      have hl : (intDecimal i).length = (natDecimal (-i).toNat).length + 1 := by
        rw [intDecimal, if_pos hneg]
        simp
      rw [hl, natDecimal_length_log hne]
      omega
    · rw [if_neg hneg, if_neg hneg]
      have hl : intDecimal i = natDecimal i.toNat := by
        rw [intDecimal, if_neg hneg]
      rw [hl]
      by_cases h0 : i.toNat = 0
      · rw [digits_in_number, if_pos h0, h0]
        rfl
      · rw [digits_in_number, if_neg h0, natDecimal_length_log h0]
        omega

theorem C8_integer_encode_len_witness :
    ∃ e, encode (.integer (-74834 : Int)) = some e ∧
      e.length = integer_encode_len (-74834 : Int) :=
  C8_integer_encode_len (-74834) (by decide)

/-- C8 counterexample: `10^12` renders as 13 characters, so the encoder's
12-byte decimal buffer overflows and encoding fails, while
`integer_encode_len` still reports 16 bytes. -/
theorem C8_integer_encode_len_counterexample :
    encode (.integer (10 ^ 12 : Int)) = none ∧
    integer_encode_len (10 ^ 12 : Int) = 16 := by
  refine ⟨rfl, ?_⟩
  have ht : ((10 ^ 12 : Int)).toNat = 10 ^ 12 := by decide
  have hl : Nat.log 10 (10 ^ 12) = 12 := Nat.log_pow (by omega) 12
  rw [integer_encode_len, if_neg (by decide), if_neg (by decide), ht, digits_in_number,
    if_neg (by decide), hl]

/-- C9: the `Display` rendering of an array prints nothing for its first
child (the guarded body `if i > 0` contains both the separator and the child
render), so a one-element array renders empty and a two-element array renders
a leading space followed by only the second child. -/
theorem C9_display_array_skips_first :
    (∀ x y : Frame, ∀ xs : List Frame,
      displayFrame (.array (x :: xs)) = displayFrame (.array (y :: xs))) ∧
    displayFrame (.array [.simpleString [104, 105]]) = [] ∧
    displayFrame (.array [.simpleString [104, 105], .simpleString [121, 111]])
      = [32, 121, 111] :=
  ⟨fun _ _ _ => rfl, rfl, rfl⟩

/-- C10: an error line recognized as a redirection is stored as the
reconstruction `"<KIND> <slot> <host>:<port>"` from the parsed numeric
fields, and whenever the wire line's slot or port token carries a leading
zero the stored text differs from the wire bytes. -/
theorem C10_reconstructed_text (isMoved : Bool) (s h p : List Nat) (sv pv : Nat)
    (hs : parseU16 s = some sv) (hp : parseU16 p = some pv)
    (hh32 : 32 ∉ h) (hh58 : 58 ∉ h)
    (hzero : (s.head? = some 48 ∧ 2 ≤ s.length) ∨ (p.head? = some 48 ∧ 2 ≤ p.length)) :
    string_to_redirection (kindTag isMoved ++ (32 :: (s ++ (32 :: (h ++ (58 :: p)))))) =
      .ok (mkRedirection isMoved sv h pv) ∧
    storedText (frameOfRedirection (mkRedirection isMoved sv h pv)) =
      some (redirection_to_frame (kindTag isMoved) sv h pv) ∧
    redirection_to_frame (kindTag isMoved) sv h pv ≠
      kindTag isMoved ++ (32 :: (s ++ (32 :: (h ++ (58 :: p))))) := by
  refine ⟨string_to_redirection_ok hs hp hh32 hh58, ?_, ?_⟩
  · cases isMoved <;> rfl
  · intro heq
    rw [redirection_to_frame] at heq
    simp only [List.append_assoc, List.cons_append] at heq
    have h1 := List.append_cancel_left heq
    injection h1 with _ h2
    obtain ⟨hsv, hrest⟩ := append_sep_inj (natDecimal_no_32 sv) (parseU16_no_32 hs) h2
    have h3 := List.append_cancel_left hrest
    injection h3 with _ h4
    rcases hzero with ⟨hz0, hzl⟩ | ⟨hz0, hzl⟩
    · exact parseU16_leading_zero hs hz0 hzl hsv
    · exact parseU16_leading_zero hp hz0 hzl h4

theorem C10_reconstructed_text_witness :
    string_to_redirection (strBytes "MOVED 007 h:1")
      = .ok (mkRedirection true 7 [104] 1) ∧
    storedText (frameOfRedirection (mkRedirection true 7 [104] 1))
      = some (strBytes "MOVED 7 h:1") ∧
    strBytes "MOVED 7 h:1" ≠ strBytes "MOVED 007 h:1" := by
  have h := C10_reconstructed_text true [48, 48, 55] [104] [49] 7 1 (by decide)
    (by decide) (by decide) (by decide) (Or.inl ⟨rfl, by decide⟩)
  have e1 : kindTag true ++ (32 :: ([48, 48, 55] ++ (32 :: ([104] ++ (58 :: [49])))))
      = strBytes "MOVED 007 h:1" := rfl
  have e2 : redirection_to_frame (kindTag true) 7 [104] 1 = strBytes "MOVED 7 h:1" := rfl
  rw [e1, e2] at h
  exact h

end RedisProto